import Mathlib

/-!
Verification development for the fleet sync engine.

Rust strings are modelled at two levels, matching how the source treats them:
- the domain/pipeline layer (fleet-core, fleet-pipeline) works with `str`
  character operations (`chars()`, `to_lowercase`, `split('/')`), modelled as
  `List Char`;
- the persistence layer (fleet-persistence) works with the UTF-8 byte view
  (`as_bytes`, key prefixes with a 0x00 separator), modelled as `List Nat`.
-/

namespace Fleet

/-- A Rust `String` viewed as its sequence of characters. -/
abbrev Str := List Char

/-- fleet-core `path_utils.rs`, `FleetPath::normalize`: replace every
backslash with a forward slash. -/
def normalize (p : Str) : Str := p.map (fun c => if c = '\\' then '/' else c)

/-- Character lowercase, mirroring Rust `str::to_lowercase` (they agree on
ASCII input, which is all the repository formats produce). -/
def lowerStr (s : Str) : Str := s.map Char.toLower

/-- fleet-core `path_utils.rs`, `FleetPath::canonicalize`: lowercase of the
normalized form; used only as a case-insensitive diff key. -/
def canonicalize (p : Str) : Str := lowerStr (normalize p)

/-! ## Data model (fleet-core `lib.rs`) -/

inductive FileKind
  | file
  | pbo
deriving DecidableEq, Repr

structure FilePart where
  path : Str
  length : Nat
  start : Nat
  checksum : Str
deriving DecidableEq, Repr

structure FsFile where
  path : Str
  length : Nat
  checksum : Str
  fileKind : FileKind
  parts : List FilePart
deriving DecidableEq, Repr

structure ModEntry where
  name : Str
  checksum : Str
  files : List FsFile
deriving DecidableEq, Repr

structure Manifest where
  version : Str
  mods : List ModEntry
deriving DecidableEq, Repr

structure RenameAction where
  oldPath : Str
  newPath : Str
deriving DecidableEq, Repr

structure DownloadAction where
  modName : Str
  relPath : Str
  size : Nat
  expectedChecksum : Str
deriving DecidableEq, Repr

structure DeleteAction where
  path : Str
deriving DecidableEq, Repr

structure VerificationAction where
  path : Str
  expectedChecksum : Str
deriving DecidableEq, Repr

structure SyncPlan where
  renames : List RenameAction
  checks : List VerificationAction
  downloads : List DownloadAction
  deletes : List DeleteAction
deriving DecidableEq, Repr

/-! ## Differ (fleet-core `diff.rs`)

`diff` builds a `HashMap<String, Vec<(&String, &Mod)>>` of local mods grouped
by lowercased name, picks a survivor per remote mod, and diffs files inside a
matched mod keyed by `FleetPath::canonicalize`.  `HashMap::collect` keeps the
last value inserted for a key, hence `getLast?` below.  The four output
vectors of the single Rust loop are reconstructed here as independent
per-list comprehensions; each vector is only ever appended to in the loop, so
the contents and order coincide. -/

/-- The bucket `local_groups[key]`: all local mods whose lowercased name is
`key`, in manifest order (built by `entry(..).or_default().push(..)`). -/
def bucketOf (localMods : List ModEntry) (key : Str) : List ModEntry :=
  localMods.filter (fun m => decide (lowerStr m.name = key))

/-- Survivor selection: the candidate whose name is byte-equal to the remote
name, else the first candidate. -/
def survivorOf (cands : List ModEntry) (rname : Str) : Option ModEntry :=
  match cands.find? (fun m => decide (m.name = rname)) with
  | some m => some m
  | none => cands.head?

/-- `diff_files` local lookup: `HashMap` collected from
`(canonicalize(path), file)` pairs; the last file with a given key wins. -/
def localFileLookup (files : List FsFile) (key : Str) : Option FsFile :=
  (files.filter (fun f => decide (canonicalize f.path = key))).getLast?

/-- The set of canonicalized remote paths (`visited_files` after the first
loop of `diff_files`). -/
def remoteKeys (rm : ModEntry) : List Str :=
  rm.files.map (fun f => canonicalize f.path)

/-- Downloads emitted by `diff_files` for a matched mod. -/
def diffFilesDownloads (rm lm : ModEntry) : List DownloadAction :=
  rm.files.filterMap (fun rf =>
    match localFileLookup lm.files (canonicalize rf.path) with
    | some lf =>
        if lf.checksum = rf.checksum then none
        else some ⟨rm.name, rf.path, rf.length, rf.checksum⟩
    | none => some ⟨rm.name, rf.path, rf.length, rf.checksum⟩)

/-- Verification checks emitted by `diff_files` for a matched mod; the path
is `{local_mod_name}/{local_path}`. -/
def diffFilesChecks (rm lm : ModEntry) : List VerificationAction :=
  rm.files.filterMap (fun rf =>
    match localFileLookup lm.files (canonicalize rf.path) with
    | some lf =>
        if lf.checksum = rf.checksum
        then some ⟨lm.name ++ ('/' :: lf.path), lf.checksum⟩
        else none
    | none => none)

/-- File deletes emitted by `diff_files`: local files whose canonical key is
not among the remote keys. -/
def diffFilesDeletes (rm lm : ModEntry) : List DeleteAction :=
  lm.files.filterMap (fun lf =>
    if canonicalize lf.path ∈ remoteKeys rm then none
    else some ⟨lm.name ++ ('/' :: lf.path)⟩)

/-- Renames contributed by one remote mod (case-only mod name mismatch). -/
def modRenames (localMods : List ModEntry) (rm : ModEntry) : List RenameAction :=
  match survivorOf (bucketOf localMods (lowerStr rm.name)) rm.name with
  | none => []
  | some sv => if sv.name = rm.name then [] else [⟨sv.name, rm.name⟩]

/-- Downloads contributed by one remote mod. -/
def modDownloads (localMods : List ModEntry) (rm : ModEntry) : List DownloadAction :=
  match survivorOf (bucketOf localMods (lowerStr rm.name)) rm.name with
  | some sv => diffFilesDownloads rm sv
  | none => rm.files.map (fun f => ⟨rm.name, f.path, f.length, f.checksum⟩)

/-- Verification checks contributed by one remote mod. -/
def modChecks (localMods : List ModEntry) (rm : ModEntry) : List VerificationAction :=
  match survivorOf (bucketOf localMods (lowerStr rm.name)) rm.name with
  | some sv => diffFilesChecks rm sv
  | none => []

/-- Deletes contributed by one remote mod: non-survivor bucket members
(whole-mod deletes) followed by the file-level deletes of `diff_files`. -/
def modDeletes (localMods : List ModEntry) (rm : ModEntry) : List DeleteAction :=
  let cands := bucketOf localMods (lowerStr rm.name)
  match survivorOf cands rm.name with
  | none => []
  | some sv =>
      (cands.filter (fun m => !(decide (m.name = sv.name)))).map
        (fun m => DeleteAction.mk m.name)
        ++ diffFilesDeletes rm sv

/-- Local mod names claimed while processing one remote mod (survivor plus
every non-survivor bucket member). -/
def modClaimed (localMods : List ModEntry) (rm : ModEntry) : List Str :=
  let cands := bucketOf localMods (lowerStr rm.name)
  match survivorOf cands rm.name with
  | none => []
  | some sv =>
      sv.name ::
        (cands.filter (fun m => !(decide (m.name = sv.name)))).map ModEntry.name

/-- All names in `claimed_local_mods` after the remote pass. -/
def claimedMods (localMods remoteMods : List ModEntry) : List Str :=
  remoteMods.flatMap (modClaimed localMods)

/-- The orphan pass: whole-mod deletes for every unclaimed local mod. -/
def orphanDeletes (localMods remoteMods : List ModEntry) : List DeleteAction :=
  localMods.filterMap (fun m =>
    if m.name ∈ claimedMods localMods remoteMods then none
    else some ⟨m.name⟩)

/-- fleet-core `diff.rs`, `diff`. -/
def diff (remote localM : Manifest) : SyncPlan :=
  { renames := remote.mods.flatMap (modRenames localM.mods)
    checks := remote.mods.flatMap (modChecks localM.mods)
    downloads := remote.mods.flatMap (modDownloads localM.mods)
    deletes := remote.mods.flatMap (modDeletes localM.mods)
      ++ orphanDeletes localM.mods remote.mods }

/-! ## Sync errors (fleet-pipeline `sync/mod.rs`) -/

inductive SyncError
  | remoteErr (msg : Str)
  | localErr (msg : Str)
  | diffErr (msg : Str)
  | execution (msg : Str)
deriving DecidableEq, Repr

/-! ## Plan executor path validation (fleet-pipeline `sync/execute.rs`)

`validate_relative_path` in `execute.rs` rejects any path containing the
substring `..` (a plain `str::contains`, not a per-segment test), and any
path that starts with a slash or backslash or whose second character is a
colon.  The Rust messages interpolate the offending path at the end; the
inner quoting of the format strings is elided here. -/

/-- `str::contains` for a pattern string: the pattern occurs as a contiguous
substring. -/
def strContains (pat : Str) (s : Str) : Bool :=
  match s with
  | [] => pat.isEmpty
  | _ :: t => pat.isPrefixOf s || strContains pat t

/-- The two dots pattern of the traversal check. -/
def dotdot : Str := ['.', '.']

/-- Message prefix of the traversal rejection in `execute.rs`. -/
def travMsg : Str := "Security: Path contains parent directory traversal: ".toList

/-- Message prefix of the absolute-path rejection in `execute.rs`. -/
def absMsg : Str := "Security: Path appears absolute: ".toList

/-- The `Security` tag every executor path rejection starts with. -/
def securityTag : Str := "Security".toList

/-- fleet-pipeline `sync/execute.rs`, `validate_relative_path`.
`path.len() > 1 && path.chars().nth(1) == Some(':')` is modelled on the
character sequence; the byte-length versus character-length difference
cannot change the outcome because `nth(1)` is `None` whenever the character
length is below 2. -/
def execValidateRelPath (path : Str) : Except SyncError Unit :=
  if strContains dotdot path then
    Except.error (SyncError.execution (travMsg ++ path))
  else if path.head? = some '/' ∨ path.head? = some '\\'
      ∨ (1 < path.length ∧ path.get? 1 = some ':') then
    Except.error (SyncError.execution (absMsg ++ path))
  else Except.ok ()

/-- The validation calls made by `DefaultPlanExecutor::execute` on the
deletes list, in order. -/
def validateDeletes (dels : List DeleteAction) : Except SyncError Unit :=
  match dels with
  | [] => Except.ok ()
  | d :: rest =>
      match execValidateRelPath d.path with
      | Except.error e => Except.error e
      | Except.ok _ => validateDeletes rest

/-- The validation calls made on the renames list (old path then new path). -/
def validateRenames (rens : List RenameAction) : Except SyncError Unit :=
  match rens with
  | [] => Except.ok ()
  | r :: rest =>
      match execValidateRelPath r.oldPath with
      | Except.error e => Except.error e
      | Except.ok _ =>
          match execValidateRelPath r.newPath with
          | Except.error e => Except.error e
          | Except.ok _ => validateRenames rest

/-- The validation calls made on one download action: mod name, relative
path, then the normalized relative path again (URL construction, which
cannot reject a path, is elided). -/
def validateDownloadAction (a : DownloadAction) : Except SyncError Unit :=
  match execValidateRelPath a.modName with
  | Except.error e => Except.error e
  | Except.ok _ =>
      match execValidateRelPath a.relPath with
      | Except.error e => Except.error e
      | Except.ok _ => execValidateRelPath (normalize a.relPath)

/-- The validation calls made on the downloads list, in order. -/
def validateDownloads (dls : List DownloadAction) : Except SyncError Unit :=
  match dls with
  | [] => Except.ok ()
  | a :: rest =>
      match validateDownloadAction a with
      | Except.error e => Except.error e
      | Except.ok _ => validateDownloads rest

/-- All path validations performed by `execute`, in plan-action order
(deletes, renames, downloads); the first rejection aborts the whole
execute.  Filesystem mutations between validations do not influence any
validation outcome and are elided. -/
def validatePlanPaths (plan : SyncPlan) : Except SyncError Unit :=
  match validateDeletes plan.deletes with
  | Except.error e => Except.error e
  | Except.ok _ =>
      match validateRenames plan.renames with
      | Except.error e => Except.error e
      | Except.ok _ => validateDownloads plan.downloads

/-! ## The §4.1 segment-wise validator (fleet-persistence `paths.rs`),
character-level rendering, for comparison with the executor's rule. -/

/-- fleet-persistence `paths.rs`, `validate_relative_path` (the segment-wise
form), as a predicate: `true` means accepted. -/
def segmentValidateRelPath (path : Str) : Bool :=
  !((path.splitOn '/').any (fun seg => seg == dotdot || seg == ['.']))
    && !(path.head? == some '/' || path.head? == some '\\'
          || (decide (1 < path.length) && path.get? 1 == some ':'))

/-! ## Downloader retry loop (fleet-infra `net/mod.rs`, `download_single`)

One attempt of the `for _attempt in 0..3` loop is abstracted by its
externally visible outcome: the HTTP request or status failed, the stream or
a write broke, or the stream completed cleanly, in which case the attempt
carries the re-computed checksum of the temporary file (`none` when hashing
failed) and whether the rename to the target succeeded.  The loop sleeps
500 ms after every unsuccessful attempt (which is what separates retries)
and deletes the temporary file when no attempt succeeded. -/

inductive AttemptOutcome
  | httpFail
  | streamErr
  | completed (hash : Option Str) (renameOk : Bool)
deriving DecidableEq, Repr

/-- Rust `str::eq_ignore_ascii_case`: equality after mapping ASCII capital
letters to lowercase. -/
def asciiLower (c : Char) : Char :=
  if 'A' ≤ c ∧ c ≤ 'Z' then Char.ofNat (c.toNat + 32) else c

def eqIgnoreAsciiCase (a b : Str) : Bool :=
  decide (a.map asciiLower = b.map asciiLower)

/-- Whether one attempt reaches `success = true`: clean completion,
verification against the expected checksum (ASCII case-insensitive; absent
or failed hashing is a failure), and a successful rename. -/
def attemptSucceeds (expected : Option Str) (o : AttemptOutcome) : Bool :=
  match o with
  | .completed hash renameOk =>
      (match expected with
       | some e =>
           match hash with
           | some actual => eqIgnoreAsciiCase actual e
           | none => false
       | none => true)
      && renameOk
  | _ => false

/-- Milliseconds slept after an unsuccessful attempt. -/
def retrySleepMs : Nat := 500

/-- The attempt bound of the download loop. -/
def maxDownloadAttempts : Nat := 3

/-- The retry loop: `idx` is the index of the next attempt, the second
argument the remaining fuel.  Returns (success, attempts used, sleep
durations in order). -/
def runAttempts (expected : Option Str) (out : Nat → AttemptOutcome) :
    Nat → Nat → Bool × Nat × List Nat
  | idx, 0 => (false, idx, [])
  | idx, n + 1 =>
      if attemptSucceeds expected (out idx) then (true, idx + 1, [])
      else
        let r := runAttempts expected out (idx + 1) n
        (r.1, r.2.1, retrySleepMs :: r.2.2)

structure DownloadRunModel where
  success : Bool
  attemptsUsed : Nat
  sleepsMs : List Nat
  tmpDeleted : Bool
deriving DecidableEq, Repr

/-- fleet-infra `net/mod.rs`, `download_single`, reduced to its control
flow: at most 3 attempts, 500 ms sleep after each unsuccessful attempt, and
removal of the `.part` temporary exactly when no attempt succeeded. -/
def downloadSingleModel (expected : Option Str) (out : Nat → AttemptOutcome) :
    DownloadRunModel :=
  let r := runAttempts expected out 0 maxDownloadAttempts
  { success := r.1, attemptsUsed := r.2.1, sleepsMs := r.2.2, tmpDeleted := !r.1 }

/-! ## Temporary file naming (fleet-infra `net/mod.rs` line 93)

`let tmp_path = req.target_path.with_extension("part")` uses
`Path::with_extension`, which REPLACES the file name's extension rather than
appending one.  The standard-library semantics on a path with forward-slash
separators: the extension is the portion of the file name after its last
dot, provided that dot is not the leading character of the file name;
`with_extension("part")` drops that portion (dot included) and appends
`.part`.  Parent-directory components (`..`) never occur in executor target
paths and are not modelled. -/

/-- The file name of a forward-slash path: everything after the last `/`. -/
def fileNameOf (p : Str) : Str :=
  (p.reverse.takeWhile (fun c => !(decide (c = '/')))).reverse

/-- Index of the last dot of a file name when that dot can delimit an
extension (it must not be the first character); `none` otherwise. -/
def extensionDotIdx (name : Str) : Option Nat :=
  match name.reverse.findIdx? (fun c => decide (c = '.')) with
  | none => none
  | some r =>
      let i := name.length - 1 - r
      if 1 ≤ i then some i else none

/-- `file_stem`: the file name with its extension (and the delimiting dot)
removed. -/
def stemOfName (name : Str) : Str :=
  match extensionDotIdx name with
  | some i => name.take i
  | none => name

/-- `target_path.with_extension("part")`. -/
def tmpPartPath (p : Str) : Str :=
  let name := fileNameOf p
  p.take (p.length - name.length) ++ stemOfName name ++ ".part".toList

/-! ## Differential fetch (fleet-pipeline `sync/engine.rs`,
`fetch_remote_state` lines 114-167) -/

inductive SyncMode
  | cacheOnly
  | metadataOnly
  | smartVerify
  | fullRehash
  | fastCheck
deriving DecidableEq, Repr

/-- A required-mod reference from the root `repo.json` (fleet-core
`repo.rs`, `RepoMod`). -/
structure RepoModRef where
  modName : Str
  checksum : Str
  enabled : Bool
deriving DecidableEq, Repr

/-- The reuse decision of the differential-analysis loop for one required
mod: the baseline mod manifest is reused exactly when a baseline manifest
was loaded, it contains a mod with the same name whose checksum equals the
expected checksum, and the request mode is not `CacheOnly`. -/
def reuseForMod (baseline : Option Manifest) (mode : SyncMode) (r : RepoModRef) :
    Option ModEntry :=
  match baseline with
  | none => none
  | some lastKnown =>
      match lastKnown.mods.find? (fun m => decide (m.name = r.modName)) with
      | none => none
      | some lm =>
          if lm.checksum = r.checksum ∧ ¬(mode = SyncMode.cacheOnly)
          then some lm else none

/-- The mods reused from the baseline, in required-mod order. -/
def reusedMods (baseline : Option Manifest) (mode : SyncMode)
    (reqs : List RepoModRef) : List ModEntry :=
  reqs.filterMap (reuseForMod baseline mode)

/-- `mods_to_fetch`: required mods not found locally. -/
def modsToFetch (baseline : Option Manifest) (mode : SyncMode)
    (reqs : List RepoModRef) : List RepoModRef :=
  reqs.filter (fun r => (reuseForMod baseline mode r).isNone)

/-- The hard concurrency cap passed to `buffer_unordered` in
`fetch_remote_state`. -/
def fetchConcurrencyLimit : Nat := 20

/-- The manifest mods assembled by `fetch_remote_state`: baseline reuses
first, then the fetched mods (each remaining mod fetched exactly once,
through a stream bounded by `fetchConcurrencyLimit`). -/
def fetchRemoteStateMods (baseline : Option Manifest) (mode : SyncMode)
    (reqs : List RepoModRef) (fetchMod : Str → ModEntry) : List ModEntry :=
  reusedMods baseline mode reqs
    ++ (modsToFetch baseline mode reqs).map (fun r => fetchMod r.modName)

/-- `FetchStats` of `fetch_remote_state`. -/
structure FetchStats where
  modsTotal : Nat
  modsFetched : Nat
  modsCached : Nat
deriving DecidableEq, Repr

def fetchStatsOf (baseline : Option Manifest) (mode : SyncMode)
    (reqs : List RepoModRef) : FetchStats :=
  { modsTotal := reqs.length
    modsFetched := (modsToFetch baseline mode reqs).length
    modsCached := reqs.length - (modsToFetch baseline mode reqs).length }

/-! ## Fast plan and local integrity plan (fleet-pipeline `sync/engine.rs`) -/

structure LocalFileSummary where
  relPath : Str
  mtime : Nat
  size : Nat
  checksum : Str
deriving DecidableEq, Repr

structure LocalManifestSummary where
  modName : Str
  files : List LocalFileSummary
deriving DecidableEq, Repr

/-- Last-wins lookup of `(mtime, size)` by relative path, the extensional
content of the `HashMap` built in `diff_summary`. -/
def summaryLookup (files : List LocalFileSummary) (rel : Str) :
    Option (Nat × Nat) :=
  ((files.filter (fun f => decide (f.relPath = rel))).getLast?).map
    (fun f => (f.mtime, f.size))

/-- The distinct relative paths of a summary, first occurrence order (the
key set of the `HashMap`; Rust iterates it in arbitrary order, which the
consumer never depends on). -/
def summaryRels (files : List LocalFileSummary) : List Str :=
  (files.map (fun f => f.relPath)).dedup

/-- `changed_files` of `diff_summary`: present in both with differing
`(mtime, size)`. -/
def changedFiles (repo localS : LocalManifestSummary) : List Str :=
  (summaryRels repo.files).filter (fun rel =>
    match summaryLookup repo.files rel, summaryLookup localS.files rel with
    | some a, some b => decide (¬(a = b))
    | _, _ => false)

/-- `missing_files` of `diff_summary`: in repo, absent locally. -/
def missingFiles (repo localS : LocalManifestSummary) : List Str :=
  (summaryRels repo.files).filter (fun rel =>
    (summaryLookup repo.files rel).isSome
      && (summaryLookup localS.files rel).isNone)

/-- `extra_files` of `diff_summary`: local files absent from the repo
summary. -/
def extraFiles (repo localS : LocalManifestSummary) : List Str :=
  (summaryRels localS.files).filter (fun rel =>
    (summaryLookup repo.files rel).isNone)

/-- `build_fast_plan` (fleet-pipeline `sync/engine.rs`). -/
def buildFastPlan (expected current : List LocalManifestSummary) : SyncPlan :=
  let downloadsFor := fun (repoMod : LocalManifestSummary) =>
    (repoMod.files.map (fun f => f.relPath)).dedup
  let planDownloads := expected.flatMap (fun repoMod =>
    match current.find? (fun m => decide (m.modName = repoMod.modName)) with
    | some localMod =>
        (changedFiles repoMod localMod ++ missingFiles repoMod localMod).filterMap
          (fun rel =>
            (repoMod.files.find? (fun f => decide (f.relPath = rel))).map
              (fun f => DownloadAction.mk repoMod.modName f.relPath f.size f.checksum))
    | none =>
        repoMod.files.map (fun f =>
          DownloadAction.mk repoMod.modName f.relPath f.size f.checksum))
  let planDeletes := expected.flatMap (fun repoMod =>
    match current.find? (fun m => decide (m.modName = repoMod.modName)) with
    | some localMod =>
        (extraFiles repoMod localMod).map (fun rel =>
          DeleteAction.mk (repoMod.modName ++ ('/' :: rel)))
    | none => [])
  let _ := downloadsFor
  { renames := []
    checks := []
    downloads := planDownloads
    deletes := planDeletes
        ++ current.filterMap (fun localMod =>
          if expected.any (fun m => decide (m.modName = localMod.modName))
          then none else some (DeleteAction.mk localMod.modName)) }

/-- The empty plan constructed at the top of
`compute_local_integrity_plan`. -/
def emptyPlan : SyncPlan := ⟨[], [], [], []⟩

/-- fleet-pipeline `sync/engine.rs`, `compute_local_integrity_plan` lines
207-229: the result of `manifest_store.load_summary` is the first argument
(an `Err` covers every load failure, including a busy baseline database),
`local.summary` the second.  Both failure paths return `Ok(empty)`. -/
def computeLocalIntegrityPlan (loadSummaryResult : Except Str (List LocalManifestSummary))
    (localSummary : Option (List LocalManifestSummary)) : Except SyncError SyncPlan :=
  match loadSummaryResult with
  | Except.error _ => Except.ok emptyPlan
  | Except.ok expected =>
      match localSummary with
      | none => Except.ok emptyPlan
      | some current => Except.ok (buildFastPlan expected current)

/-! ## Artifact collection after downloads (fleet-pipeline
`sync/execute.rs` lines 171-215)

For each successful download result the executor looks up the download
context, calls `set_file_mtime(abs_path, now)` (result ignored), then stats
the target and records the stat's mtime and size — never `now` — into the
`SyncArtifact`. -/

structure DlCtx where
  modName : Str
  relPath : Str
  checksum : Str
  size : Nat
deriving DecidableEq, Repr

structure StatMeta where
  mtime : Nat
  size : Nat
deriving DecidableEq, Repr

structure SyncArtifact where
  modName : Str
  relPath : Str
  checksum : Str
  size : Nat
  finalMtime : Nat
deriving DecidableEq, Repr

instance exceptDecEq {ε α : Type} [DecidableEq ε] [DecidableEq α] :
    DecidableEq (Except ε α) := fun a b =>
  match a, b with
  | Except.ok x, Except.ok y =>
      if h : x = y then isTrue (by rw [h])
      else isFalse (fun hh => h (by cases hh; rfl))
  | Except.ok _, Except.error _ => isFalse (fun hh => Except.noConfusion hh)
  | Except.error _, Except.ok _ => isFalse (fun hh => Except.noConfusion hh)
  | Except.error x, Except.error y =>
      if h : x = y then isTrue (by rw [h])
      else isFalse (fun hh => h (by cases hh; rfl))

/-- One download result joined with the context-map lookup and the outcome
of the `fs::metadata` call on the renamed target. -/
structure ExecDownloadOutcome where
  success : Bool
  ctx : Option DlCtx
  statResult : Except Unit StatMeta
deriving DecidableEq, Repr

/-- The accounting loop over download results; `now` is the clock value
passed to `set_file_mtime`, which never reaches an artifact.  Returns the
artifacts (in result order) and the failure count. -/
def collectArtifacts (now : Nat) (rs : List ExecDownloadOutcome) :
    List SyncArtifact × Nat :=
  match rs with
  | [] => ([], 0)
  | r :: rest =>
      let tail := collectArtifacts now rest
      if r.success then
        match r.ctx with
        | some ctx =>
            match r.statResult with
            | Except.ok meta =>
                (⟨ctx.modName, ctx.relPath, ctx.checksum, meta.size, meta.mtime⟩ :: tail.1,
                 tail.2)
            | Except.error _ => (tail.1, tail.2 + 1)
        | none => (tail.1, tail.2 + 1)
      else (tail.1, tail.2 + 1)

/-! ## Persistence layer (fleet-persistence), byte-level

The redb scan-cache keys are byte strings `mod_name || 0x00 || rel_path`
(`cache_key.rs`); the table is ordered by lexicographic byte comparison.
Rust `String`s are modelled here by their UTF-8 byte sequences (`List Nat`).
The serde codec (`codec.rs`) is a bijection between values and their
encodings, so table values are modelled as the decoded entries directly. -/

abbrev Bytes := List Nat

inductive StorageError
  | missing
  | busy
  | corrupt
  | newerSchema (found supported : Nat)
  | invalidPath (p : Bytes)
deriving DecidableEq, Repr

/-- `paths.rs` `validate_relative_path` on the UTF-8 bytes: segment split on
the `/` byte (47), `..` is [46, 46], `.` is [46]; leading `/` (47) or `\`
(92), or a second byte 58 (`:`).  Multibyte UTF-8 continuation bytes are
≥ 0x80 and collide with none of these, so the byte view agrees with the
character view on everything the store accepts. -/
def validateRelPathB (path : Bytes) : Except StorageError Unit :=
  if (path.splitOn 47).any (fun seg => seg == [46, 46] || seg == [46]) then
    Except.error (StorageError.invalidPath path)
  else if path.head? = some 47 ∨ path.head? = some 92
      ∨ (1 < path.length ∧ path.get? 1 = some 58) then
    Except.error (StorageError.invalidPath path)
  else Except.ok ()

/-- `FleetPath::normalize` on bytes: `\` (92) becomes `/` (47). -/
def normalizeB (p : Bytes) : Bytes := p.map (fun b => if b = 92 then 47 else b)

/-- `paths.rs` `normalize_rel_path`: normalize, then validate the result. -/
def normalizeRelPathB (p : Bytes) : Except StorageError Bytes :=
  match validateRelPathB (normalizeB p) with
  | Except.error e => Except.error e
  | Except.ok _ => Except.ok (normalizeB p)

/-- `cache_key.rs` `CacheKey::validate_mod_name`: the mod name must not
contain the 0x00 separator byte. -/
def validateModNameB (m : Bytes) : Except StorageError Unit :=
  if (0 : Nat) ∈ m then Except.error (StorageError.invalidPath m)
  else Except.ok ()

/-- `CacheKey::prefix_for_mod`: `mod_name || 0x00`. -/
def prefixForMod (m : Bytes) : Bytes := m ++ [0]

/-- `CacheKey::range_for_mod`: the bounded range
`[mod_name || 0x00, mod_name || 0x01)`. -/
def rangeForMod (m : Bytes) : Except StorageError (Bytes × Bytes) :=
  match validateModNameB m with
  | Except.error e => Except.error e
  | Except.ok _ => Except.ok (m ++ [0], m ++ [1])

/-- `CacheKey::to_bytes`: `mod_name || 0x00 || rel_path`. -/
def cacheKeyBytes (m rel : Bytes) : Bytes := m ++ [0] ++ rel

/-- Strict lexicographic byte order, as used by redb's ordered tables. -/
def bytesLt : Bytes → Bytes → Bool
  | _, [] => false
  | [], _ :: _ => true
  | a :: as, b :: bs => decide (a < b) || (decide (a = b) && bytesLt as bs)

def bytesLe (a b : Bytes) : Bool := decide (a = b) || bytesLt a b

/-- Membership of a key in the half-open range `[start, stop)`. -/
def inRangeB (start stop k : Bytes) : Bool := bytesLe start k && bytesLt k stop

structure FileCacheEntryB where
  mtime : Nat
  size : Nat
  checksum : Bytes
deriving DecidableEq, Repr

/-- The scan_cache table, extensionally: an association list with unique
keys maintained by `tableInsert`. -/
abbrev CacheTable := List (Bytes × FileCacheEntryB)

def tableGet (t : CacheTable) (k : Bytes) : Option FileCacheEntryB :=
  (t.find? (fun kv => decide (kv.1 = k))).map (fun kv => kv.2)

/-- redb `insert`: overwrite any existing value for the key. -/
def tableInsert (t : CacheTable) (k : Bytes) (v : FileCacheEntryB) : CacheTable :=
  t.filter (fun kv => !(decide (kv.1 = k))) ++ [(k, v)]

/-- redb `remove`. -/
def tableRemove (t : CacheTable) (k : Bytes) : CacheTable :=
  t.filter (fun kv => !(decide (kv.1 = k)))

/-- The keys produced by a range scan over `[start, stop)`. -/
def tableRangeKeys (t : CacheTable) (start stop : Bytes) : List Bytes :=
  (t.filter (fun kv => inRangeB start stop kv.1)).map (fun kv => kv.1)

/-- Collect the range's keys, then remove each — the delete-by-range loop
shared by `scan_cache_delete_mod` and `commit_sync_snapshot`. -/
def tableRemoveRange (t : CacheTable) (start stop : Bytes) : CacheTable :=
  (tableRangeKeys t start stop).foldl tableRemove t

/-- Strip a prefix, `slice::strip_prefix`. -/
def stripPrefixB : Bytes → Bytes → Option Bytes
  | [], k => some k
  | _ :: _, [] => none
  | p :: ps, k :: ks => if p = k then stripPrefixB ps ks else none

/-- `redb_store.rs` `scan_cache_delete_mod` (the table mutation inside its
write transaction; opening the database is elided). -/
def scanCacheDeleteMod (t : CacheTable) (m : Bytes) :
    Except StorageError CacheTable :=
  match validateModNameB m with
  | Except.error e => Except.error e
  | Except.ok _ =>
      match rangeForMod m with
      | Except.error e => Except.error e
      | Except.ok (start, stop) => Except.ok (tableRemoveRange t start stop)

/-- `redb_store.rs` `scan_cache_load_mod`: range scan over
`[mod||0x00, mod||0x01)`, strip the prefix from each key (a failed strip or
a non-UTF-8 remainder is skipped; in the byte model the strip always
succeeds for keys in range), and collect the entries. -/
def scanCacheLoadMod (t : CacheTable) (m : Bytes) :
    Except StorageError (List (Bytes × FileCacheEntryB)) :=
  match validateModNameB m with
  | Except.error e => Except.error e
  | Except.ok _ =>
      match rangeForMod m with
      | Except.error e => Except.error e
      | Except.ok (start, stop) =>
          Except.ok ((t.filter (fun kv => inRangeB start stop kv.1)).filterMap
            (fun kv => (stripPrefixB (prefixForMod m) kv.1).map (fun rel => (rel, kv.2))))

/-! ### The baseline store state and `commit_sync_snapshot` -/

structure BFilePart where
  path : Bytes
  length : Nat
  start : Nat
  checksum : Bytes
deriving DecidableEq, Repr

structure BFile where
  path : Bytes
  length : Nat
  checksum : Bytes
  parts : List BFilePart
deriving DecidableEq, Repr

structure BMod where
  name : Bytes
  checksum : Bytes
  files : List BFile
deriving DecidableEq, Repr

structure BManifest where
  version : Bytes
  mods : List BMod
deriving DecidableEq, Repr

structure BFileSummary where
  relPath : Bytes
  mtime : Nat
  size : Nat
  checksum : Bytes
deriving DecidableEq, Repr

structure BModSummary where
  modName : Bytes
  files : List BFileSummary
deriving DecidableEq, Repr

structure CacheUpsertRecordB where
  modName : Bytes
  relPath : Bytes
  mtime : Nat
  size : Nat
  checksum : Bytes
deriving DecidableEq, Repr

structure CacheDeleteRecordB where
  modName : Bytes
  relPath : Option Bytes
deriving DecidableEq, Repr

structure CacheRenameRecordB where
  modName : Bytes
  oldRelPath : Bytes
  newRelPath : Bytes
deriving DecidableEq, Repr

/-- The logically relevant contents of a `fleet.redb` store (meta keys that
no claim touches are elided). -/
structure StoreState where
  baselineManifest : Option BManifest
  baselineSummary : Option (List BModSummary)
  scanCache : CacheTable
  lastSyncAt : Option Nat
  lastRepairAt : Option Nat
deriving DecidableEq, Repr

/-- `RedbFleetDataStore::normalize_manifest`, per file. -/
def normalizeBFile (f : BFile) : Except StorageError BFile :=
  match normalizeRelPathB f.path with
  | Except.error e => Except.error e
  | Except.ok p =>
      match f.parts.mapM (fun pt =>
          (normalizeRelPathB pt.path).map (fun q => { pt with path := q })) with
      | Except.error e => Except.error e
      | Except.ok parts => Except.ok { f with path := p, parts := parts }

def normalizeBMod (m : BMod) : Except StorageError BMod :=
  match m.files.mapM normalizeBFile with
  | Except.error e => Except.error e
  | Except.ok fs => Except.ok { m with files := fs }

def normalizeBManifest (man : BManifest) : Except StorageError BManifest :=
  match man.mods.mapM normalizeBMod with
  | Except.error e => Except.error e
  | Except.ok ms => Except.ok { man with mods := ms }

/-- `RedbFleetDataStore::normalize_summary`, per mod. -/
def normalizeBModSummary (s : BModSummary) : Except StorageError BModSummary :=
  match s.files.mapM (fun f =>
      (normalizeRelPathB f.relPath).map (fun p => { f with relPath := p })) with
  | Except.error e => Except.error e
  | Except.ok fs => Except.ok { s with files := fs }

/-- One iteration of the `cache_deletes` loop of `commit_sync_snapshot`. -/
def applyCacheDelete (t : CacheTable) (d : CacheDeleteRecordB) :
    Except StorageError CacheTable :=
  match validateModNameB d.modName with
  | Except.error e => Except.error e
  | Except.ok _ =>
      match d.relPath with
      | some rel =>
          match normalizeRelPathB rel with
          | Except.error e => Except.error e
          | Except.ok r => Except.ok (tableRemove t (cacheKeyBytes d.modName r))
      | none =>
          match rangeForMod d.modName with
          | Except.error e => Except.error e
          | Except.ok (start, stop) => Except.ok (tableRemoveRange t start stop)

/-- One iteration of the `cache_renames` loop: copy the value to the new
key (insert first, remove the old key second, exactly as in the source). -/
def applyCacheRename (t : CacheTable) (r : CacheRenameRecordB) :
    Except StorageError CacheTable :=
  match validateModNameB r.modName with
  | Except.error e => Except.error e
  | Except.ok _ =>
      match normalizeRelPathB r.oldRelPath with
      | Except.error e => Except.error e
      | Except.ok oldR =>
          match normalizeRelPathB r.newRelPath with
          | Except.error e => Except.error e
          | Except.ok newR =>
              let oldKey := cacheKeyBytes r.modName oldR
              let newKey := cacheKeyBytes r.modName newR
              match tableGet t oldKey with
              | some v => Except.ok (tableRemove (tableInsert t newKey v) oldKey)
              | none => Except.ok t

/-- One iteration of the `cache_updates` loop. -/
def applyCacheUpsert (t : CacheTable) (u : CacheUpsertRecordB) :
    Except StorageError CacheTable :=
  match validateModNameB u.modName with
  | Except.error e => Except.error e
  | Except.ok _ =>
      match normalizeRelPathB u.relPath with
      | Except.error e => Except.error e
      | Except.ok rel =>
          Except.ok (tableInsert t (cacheKeyBytes u.modName rel)
            ⟨u.mtime, u.size, u.checksum⟩)

/-- `redb_store.rs` `commit_sync_snapshot`: everything happens inside one
redb write transaction, so the `Except` result is the transaction — the new
state is published only by the final `commit()`, and any error leaves the
caller-visible store untouched.  Order inside the transaction: baseline
manifest and summary, cache deletes, cache renames, cache upserts,
`last_sync_at` (`now` stands for the `Utc::now()` timestamp). -/
def commitSyncSnapshot (now : Nat) (s : StoreState) (man : BManifest)
    (su : List BModSummary) (ups : List CacheUpsertRecordB)
    (dels : List CacheDeleteRecordB) (rens : List CacheRenameRecordB) :
    Except StorageError StoreState :=
  match normalizeBManifest man with
  | Except.error e => Except.error e
  | Except.ok nm =>
      match su.mapM normalizeBModSummary with
      | Except.error e => Except.error e
      | Except.ok ns =>
          match dels.foldlM applyCacheDelete s.scanCache with
          | Except.error e => Except.error e
          | Except.ok t1 =>
              match rens.foldlM applyCacheRename t1 with
              | Except.error e => Except.error e
              | Except.ok t2 =>
                  match ups.foldlM applyCacheUpsert t2 with
                  | Except.error e => Except.error e
                  | Except.ok t3 =>
                      Except.ok { s with
                        baselineManifest := some nm
                        baselineSummary := some ns
                        scanCache := t3
                        lastSyncAt := some now }

/-- The caller-visible store after a `commit_sync_snapshot` call: the new
state on success, the unchanged state when the transaction aborted. -/
def commitSyncVisible (now : Nat) (s : StoreState) (man : BManifest)
    (su : List BModSummary) (ups : List CacheUpsertRecordB)
    (dels : List CacheDeleteRecordB) (rens : List CacheRenameRecordB) :
    StoreState :=
  match commitSyncSnapshot now s man su ups dels rens with
  | Except.ok s2 => s2
  | Except.error _ => s

/-- The key an upsert record writes, given that its normalization succeeds
(the validation part of `normalize_rel_path` does not change the string). -/
def upsertKeyRaw (u : CacheUpsertRecordB) : Bytes :=
  cacheKeyBytes u.modName (normalizeB u.relPath)

/-! ## Concrete instances used by counterexamples and witnesses -/

/-- A one-mod, one-file manifest (the fresh-sync scenario of the spec). -/
def tinyManifest : Manifest :=
  { version := "1.0".toList
    mods := [ { name := "@tiny".toList
                checksum := "m1".toList
                files := [ { path := "file.txt".toList, length := 5
                             checksum := "abc".toList, fileKind := FileKind.file
                             parts := [] } ] } ] }

/-- A remote mod used by the C10 witness. -/
def rmodW : ModEntry :=
  { name := "@m".toList, checksum := "r".toList
    files := [ { path := "a.pbo".toList, length := 1, checksum := "x".toList
                 fileKind := FileKind.file, parts := [] } ] }

/-- A local mod used by the C10 witness: one stale file to delete. -/
def lmodW : ModEntry :=
  { name := "@m".toList, checksum := "l".toList
    files := [ { path := "b.pbo".toList, length := 2, checksum := "y".toList
                 fileKind := FileKind.file, parts := [] } ] }

/-- An empty baseline store. -/
def emptyStore : StoreState := ⟨none, none, [], none, none⟩

/-- A minimal byte-level manifest (no files, nothing to normalize). -/
def bmanW : BManifest := ⟨[49], []⟩

/-- An upsert record for mod `@a` (bytes 64, 97), file `a.t`. -/
def upW : CacheUpsertRecordB :=
  { modName := [64, 97], relPath := [97, 46, 116], mtime := 1, size := 2
    checksum := [99] }

/-- A two-mod cache table used by the C7 witness: one entry under `@a`
([64, 97]) and one under `@b` ([64, 98]). -/
def tableW : CacheTable :=
  [ ([64, 97, 0, 120], ⟨1, 1, [97]⟩)
  , ([64, 98, 0, 121], ⟨2, 2, [98]⟩) ]

/-- A baseline manifest used by the C6 witness. -/
def baselineW : Manifest :=
  { version := "1.0".toList
    mods := [ { name := "@mod_unchanged".toList, checksum := "hash_A".toList
                files := [] } ] }

/-- The required-mod list of the C6 witness: one reused, one fetched. -/
def reqsW : List RepoModRef :=
  [ { modName := "@mod_unchanged".toList, checksum := "hash_A".toList, enabled := true }
  , { modName := "@mod_new".toList, checksum := "hash_B".toList, enabled := true } ]

/-- A download outcome list used by the C9 witness. -/
def outcomesW : List ExecDownloadOutcome :=
  [ { success := true
      ctx := some ⟨"@m".toList, "f.pbo".toList, "abc".toList, 5⟩
      statResult := Except.ok ⟨1700000000, 5⟩ } ]

/-- The artifact that `collectArtifacts` records for `outcomesW`. -/
def artifactW : SyncArtifact :=
  ⟨"@m".toList, "f.pbo".toList, "abc".toList, 5, 1700000000⟩

/-! ## General helper lemmas -/

lemma strContains_correct (pat s : Str) : strContains pat s = true ↔ pat <:+: s := by
  induction s with
  | nil =>
      simp only [strContains, List.isEmpty_iff]
      constructor
      · rintro rfl; exact List.infix_rfl
      · intro h; exact List.eq_nil_of_infix_nil h
  | cons a t ih =>
      simp only [strContains, Bool.or_eq_true, List.isPrefixOf_iff_prefix, ih,
        List.infix_cons_iff]

/-- An accepted executor path passes none of the rejection conditions, a
rejected one produces an `Execution` message starting with `Security`. -/
lemma execValidateRelPath_error_security (p : Str) (m : SyncError)
    (h : execValidateRelPath p = Except.error m) :
    ∃ s, m = SyncError.execution s ∧ securityTag <+: s := by
  unfold execValidateRelPath at h
  split at h
  · refine ⟨travMsg ++ p, by injection h with h2; exact h2.symm, ?_⟩
    exact List.IsPrefix.trans (by decide) (List.prefix_append travMsg p)
  · split at h
    · refine ⟨absMsg ++ p, by injection h with h2; exact h2.symm, ?_⟩
      exact List.IsPrefix.trans (by decide) (List.prefix_append absMsg p)
    · exact absurd h (by simp)

lemma validateDeletes_ok_iff (dels : List DeleteAction) :
    validateDeletes dels = Except.ok () ↔
      ∀ d ∈ dels, execValidateRelPath d.path = Except.ok () := by
  induction dels with
  | nil => simp [validateDeletes]
  | cons d rest ih =>
      simp only [validateDeletes, List.mem_cons]
      cases hd : execValidateRelPath d.path with
      | error e =>
          simp only [iff_def]
          constructor
          · intro h; exact absurd h (by simp)
          · intro h; exact absurd (h d (Or.inl rfl)) (by simp [hd])
      | ok u =>
          cases u
          constructor
          · intro h x hx
            rcases hx with rfl | hx
            · exact hd
            · exact (ih.mp h) x hx
          · intro h; exact ih.mpr (fun x hx => h x (Or.inr hx))

lemma validateDeletes_error (dels : List DeleteAction) (m : SyncError)
    (h : validateDeletes dels = Except.error m) :
    ∃ d ∈ dels, execValidateRelPath d.path = Except.error m := by
  induction dels with
  | nil => exact absurd h (by simp [validateDeletes])
  | cons d rest ih =>
      unfold validateDeletes at h
      cases hd : execValidateRelPath d.path with
      | error e =>
          rw [hd] at h
          injection h with h2
          exact ⟨d, List.mem_cons_self d rest, by rw [hd, h2]⟩
      | ok u =>
          cases u
          rw [hd] at h
          rcases ih h with ⟨x, hx, hxe⟩
          exact ⟨x, List.mem_cons_of_mem d hx, hxe⟩

lemma validateRenames_ok_iff (rens : List RenameAction) :
    validateRenames rens = Except.ok () ↔
      ∀ r ∈ rens, execValidateRelPath r.oldPath = Except.ok ()
        ∧ execValidateRelPath r.newPath = Except.ok () := by
  induction rens with
  | nil => simp [validateRenames]
  | cons r rest ih =>
      simp only [validateRenames, List.mem_cons]
      cases ho : execValidateRelPath r.oldPath with
      | error e =>
          constructor
          · intro h; exact absurd h (by simp)
          · intro h; exact absurd (h r (Or.inl rfl)).1 (by simp [ho])
      | ok u =>
          cases u
          cases hn : execValidateRelPath r.newPath with
          | error e =>
              constructor
              · intro h; exact absurd h (by simp)
              · intro h; exact absurd (h r (Or.inl rfl)).2 (by simp [hn])
          | ok v =>
              cases v
              constructor
              · intro h x hx
                rcases hx with rfl | hx
                · exact ⟨ho, hn⟩
                · exact (ih.mp h) x hx
              · intro h; exact ih.mpr (fun x hx => h x (Or.inr hx))

lemma validateRenames_error (rens : List RenameAction) (m : SyncError)
    (h : validateRenames rens = Except.error m) :
    ∃ r ∈ rens, execValidateRelPath r.oldPath = Except.error m
      ∨ execValidateRelPath r.newPath = Except.error m := by
  induction rens with
  | nil => exact absurd h (by simp [validateRenames])
  | cons r rest ih =>
      unfold validateRenames at h
      cases ho : execValidateRelPath r.oldPath with
      | error e =>
          rw [ho] at h
          injection h with h2
          exact ⟨r, List.mem_cons_self r rest, Or.inl (by rw [ho, h2])⟩
      | ok u =>
          cases u
          rw [ho] at h
          cases hn : execValidateRelPath r.newPath with
          | error e =>
              rw [hn] at h
              injection h with h2
              exact ⟨r, List.mem_cons_self r rest, Or.inr (by rw [hn, h2])⟩
          | ok v =>
              cases v
              rw [hn] at h
              rcases ih h with ⟨x, hx, hxe⟩
              exact ⟨x, List.mem_cons_of_mem r hx, hxe⟩

lemma validateDownloadAction_ok_iff (a : DownloadAction) :
    validateDownloadAction a = Except.ok () ↔
      execValidateRelPath a.modName = Except.ok ()
        ∧ execValidateRelPath a.relPath = Except.ok ()
        ∧ execValidateRelPath (normalize a.relPath) = Except.ok () := by
  unfold validateDownloadAction
  cases hm : execValidateRelPath a.modName with
  | error e => simp [hm]
  | ok u =>
      cases u
      cases hr : execValidateRelPath a.relPath with
      | error e => simp [hr]
      | ok v => cases v; simp [hr]

lemma validateDownloadAction_error (a : DownloadAction) (m : SyncError)
    (h : validateDownloadAction a = Except.error m) :
    execValidateRelPath a.modName = Except.error m
      ∨ execValidateRelPath a.relPath = Except.error m
      ∨ execValidateRelPath (normalize a.relPath) = Except.error m := by
  unfold validateDownloadAction at h
  cases hm : execValidateRelPath a.modName with
  | error e =>
      rw [hm] at h; injection h with h2
      exact Or.inl (by rw [h2])
  | ok u =>
      cases u
      rw [hm] at h
      cases hr : execValidateRelPath a.relPath with
      | error e =>
          rw [hr] at h; injection h with h2
          exact Or.inr (Or.inl (by rw [h2]))
      | ok v => cases v; rw [hr] at h; exact Or.inr (Or.inr h)

lemma validateDownloads_ok_iff (dls : List DownloadAction) :
    validateDownloads dls = Except.ok () ↔
      ∀ a ∈ dls, validateDownloadAction a = Except.ok () := by
  induction dls with
  | nil => simp [validateDownloads]
  | cons a rest ih =>
      simp only [validateDownloads, List.mem_cons]
      cases ha : validateDownloadAction a with
      | error e =>
          constructor
          · intro h; exact absurd h (by simp)
          · intro h; exact absurd (h a (Or.inl rfl)) (by simp [ha])
      | ok u =>
          cases u
          constructor
          · intro h x hx
            rcases hx with rfl | hx
            · exact ha
            · exact (ih.mp h) x hx
          · intro h; exact ih.mpr (fun x hx => h x (Or.inr hx))

lemma validateDownloads_error (dls : List DownloadAction) (m : SyncError)
    (h : validateDownloads dls = Except.error m) :
    ∃ a ∈ dls, validateDownloadAction a = Except.error m := by
  induction dls with
  | nil => exact absurd h (by simp [validateDownloads])
  | cons a rest ih =>
      unfold validateDownloads at h
      cases ha : validateDownloadAction a with
      | error e =>
          rw [ha] at h
          injection h with h2
          exact ⟨a, List.mem_cons_self a rest, by rw [ha, h2]⟩
      | ok u =>
          cases u
          rw [ha] at h
          rcases ih h with ⟨x, hx, hxe⟩
          exact ⟨x, List.mem_cons_of_mem a hx, hxe⟩

lemma validatePlanPaths_ok_iff (plan : SyncPlan) :
    validatePlanPaths plan = Except.ok () ↔
      validateDeletes plan.deletes = Except.ok ()
        ∧ validateRenames plan.renames = Except.ok ()
        ∧ validateDownloads plan.downloads = Except.ok () := by
  unfold validatePlanPaths
  cases h1 : validateDeletes plan.deletes with
  | error e => simp
  | ok u =>
      cases u
      cases h2 : validateRenames plan.renames with
      | error e => simp
      | ok v => cases v; simp

lemma validatePlanPaths_error (plan : SyncPlan) (m : SyncError)
    (h : validatePlanPaths plan = Except.error m) :
    ∃ p, execValidateRelPath p = Except.error m := by
  unfold validatePlanPaths at h
  cases h1 : validateDeletes plan.deletes with
  | error e =>
      rw [h1] at h
      injection h with h2
      subst h2
      rcases validateDeletes_error _ _ h1 with ⟨d, _, hd⟩
      exact ⟨d.path, hd⟩
  | ok u =>
      cases u
      rw [h1] at h
      cases h2 : validateRenames plan.renames with
      | error e =>
          rw [h2] at h
          injection h with h3
          subst h3
          rcases validateRenames_error _ _ h2 with ⟨r, _, hr | hr⟩
          · exact ⟨r.oldPath, hr⟩
          · exact ⟨r.newPath, hr⟩
      | ok v =>
          cases v
          rw [h2] at h
          rcases validateDownloads_error _ _ h with ⟨a, _, ha⟩
          rcases validateDownloadAction_error _ _ ha with hx | hx | hx
          · exact ⟨a.modName, hx⟩
          · exact ⟨a.relPath, hx⟩
          · exact ⟨normalize a.relPath, hx⟩

/-! ## Claim theorems -/

/-- C8: the claim says a busy baseline database makes
`compute_local_integrity_plan` surface a `Local` error mentioning the busy
condition.  The code instead swallows every summary-load failure — including
a busy database — and returns an empty plan: the function never produces an
error from a failed load, contradicting the repository's own test
`local_integrity_errors_on_busy_db`. -/
theorem local_integrity_plan_swallows_busy :
    computeLocalIntegrityPlan
        (Except.error "load summary failed: database busy".toList)
        (some [⟨"@m".toList, []⟩]) = Except.ok emptyPlan
    ∧ (∀ (e : Str) (ls : Option (List LocalManifestSummary)),
        computeLocalIntegrityPlan (Except.error e) ls = Except.ok emptyPlan) :=
  ⟨rfl, fun _ _ => rfl⟩

/-- C4: the claim says the temporary download file is the target name with
an appended `.part` suffix, unique per target.  The code calls
`with_extension("part")`, which replaces the extension: `data.bin` and
`data.txt` in the same directory share the temporary `data.part`, and the
temporary of `data.bin` is not `data.bin.part`. -/
theorem tmp_part_path_replaces_extension :
    tmpPartPath "@m/addons/data.bin".toList = "@m/addons/data.part".toList
    ∧ tmpPartPath "@m/addons/data.txt".toList = "@m/addons/data.part".toList
    ∧ tmpPartPath "@m/addons/data.bin".toList
        ≠ "@m/addons/data.bin".toList ++ ".part".toList := by decide

/-- C2 counterexample: the claim says a path whose only `..` is a substring
inside a filename (`foo..bar`) is accepted by the executor, and that `.`
segments are rejected.  The executor's validator does the opposite on both:
it rejects `foo..bar` (substring test) — failing a whole plan containing it
— and accepts `./x`, while the §4.1 segment-wise validator in
fleet-persistence accepts `foo..bar` and rejects `./x`. -/
theorem execute_rejects_inner_dotdot :
    execValidateRelPath "foo..bar".toList
      = Except.error (SyncError.execution (travMsg ++ "foo..bar".toList))
    ∧ segmentValidateRelPath "foo..bar".toList = true
    ∧ execValidateRelPath "./x".toList = Except.ok ()
    ∧ segmentValidateRelPath "./x".toList = false
    ∧ validatePlanPaths
        ⟨[], [], [⟨"@x".toList, "foo..bar".toList, 1, "c".toList⟩], []⟩
      = Except.error (SyncError.execution (travMsg ++ "foo..bar".toList)) := by
  decide

/-- C2 (amended): the plan executor re-validates every relative path of
every plan action with its own `validate_relative_path` before touching the
filesystem for that action, and a violation fails the entire execute with an
`Execution` error whose message begins with `Security`; the executor's rule
rejects a path exactly when it contains the substring `..` anywhere (so
`foo..bar` is rejected), or starts with `/` or `\`, or has `:` as its second
character; segments equal to `.` are accepted. -/
theorem execute_path_validation_rule :
    (∀ p : Str, execValidateRelPath p = Except.ok () ↔
        (¬ dotdot <:+: p ∧ ¬ p.head? = some '/' ∧ ¬ p.head? = some '\\'
          ∧ ¬ (1 < p.length ∧ p.get? 1 = some ':')))
    ∧ (∀ p m, execValidateRelPath p = Except.error m →
        ∃ s, m = SyncError.execution s ∧ securityTag <+: s)
    ∧ (∀ plan : SyncPlan, validatePlanPaths plan = Except.ok () ↔
        ((∀ d ∈ plan.deletes, execValidateRelPath d.path = Except.ok ())
          ∧ (∀ r ∈ plan.renames, execValidateRelPath r.oldPath = Except.ok ()
              ∧ execValidateRelPath r.newPath = Except.ok ())
          ∧ (∀ a ∈ plan.downloads, execValidateRelPath a.modName = Except.ok ()
              ∧ execValidateRelPath a.relPath = Except.ok ()
              ∧ execValidateRelPath (normalize a.relPath) = Except.ok ())))
    ∧ (∀ plan m, validatePlanPaths plan = Except.error m →
        ∃ s, m = SyncError.execution s ∧ securityTag <+: s) := by
  refine ⟨?_, execValidateRelPath_error_security, ?_, ?_⟩
  · intro p
    by_cases hc : strContains dotdot p = true
    · have hinf := (strContains_correct dotdot p).mp hc
      simp [execValidateRelPath, hc, hinf]
    · have hinf : ¬ dotdot <:+: p := fun hi => hc ((strContains_correct _ _).mpr hi)
      by_cases habs : p.head? = some '/' ∨ p.head? = some '\\'
          ∨ (1 < p.length ∧ p.get? 1 = some ':')
      · constructor
        · intro h
          unfold execValidateRelPath at h
          rw [if_neg hc, if_pos habs] at h
          exact absurd h (by simp)
        · intro ⟨_, h2, h3, h4⟩
          exact absurd habs (by tauto)
      · push_neg at habs
        constructor
        · intro _
          exact ⟨hinf, habs.1, habs.2.1, fun hx => habs.2.2 hx.1 |>.elim (by tauto)⟩
        · intro _
          unfold execValidateRelPath
          rw [if_neg hc, if_neg]
          rintro (hx | hx | hx)
          · exact habs.1 hx
          · exact habs.2.1 hx
          · exact (habs.2.2 hx.1) hx.2
  · intro plan
    rw [validatePlanPaths_ok_iff, validateDeletes_ok_iff, validateRenames_ok_iff,
      validateDownloads_ok_iff]
    constructor
    · rintro ⟨h1, h2, h3⟩
      exact ⟨h1, h2, fun a ha => (validateDownloadAction_ok_iff a).mp (h3 a ha)⟩
    · rintro ⟨h1, h2, h3⟩
      exact ⟨h1, h2, fun a ha => (validateDownloadAction_ok_iff a).mpr (h3 a ha)⟩
  · intro plan m h
    rcases validatePlanPaths_error plan m h with ⟨p, hp⟩
    exact execValidateRelPath_error_security p m hp

/-- C2 witness: a benign plan passes every executor path validation. -/
theorem execute_path_validation_rule_witness :
    validatePlanPaths
        ⟨[⟨"@old".toList, "@new".toList⟩], [],
          [⟨"@m".toList, "addons/a.pbo".toList, 1, "c".toList⟩],
          [⟨"@gone".toList⟩]⟩
      = Except.ok () :=
  (execute_path_validation_rule.2.2.1 _).mpr ⟨by decide, by decide, by decide⟩

/-- C3: the download loop makes at most 3 attempts; it succeeds exactly when
one of the first 3 attempt outcomes succeeds, and an attempt with an
expected checksum succeeds exactly when the stream completed, the re-hashed
checksum equals the expected one under ASCII case-insensitive comparison,
and the rename succeeded; the temporary file is deleted exactly when no
attempt succeeded; every sleep is the 500 ms retry sleep, one after each
unsuccessful attempt (hence one before each retry). -/
theorem download_retry_policy (e : Str) (out : Nat → AttemptOutcome) :
    (downloadSingleModel (some e) out).attemptsUsed ≤ maxDownloadAttempts
    ∧ ((downloadSingleModel (some e) out).success = true ↔
        ∃ i < 3, attemptSucceeds (some e) (out i) = true)
    ∧ (∀ o, attemptSucceeds (some e) o = true ↔
        ∃ a, o = AttemptOutcome.completed (some a) true
          ∧ eqIgnoreAsciiCase a e = true)
    ∧ (downloadSingleModel (some e) out).tmpDeleted
        = !(downloadSingleModel (some e) out).success
    ∧ (∀ d ∈ (downloadSingleModel (some e) out).sleepsMs, d = retrySleepMs)
    ∧ ((downloadSingleModel (some e) out).success = false →
        (downloadSingleModel (some e) out).sleepsMs.length = maxDownloadAttempts)
    ∧ ((downloadSingleModel (some e) out).success = true →
        (downloadSingleModel (some e) out).sleepsMs.length
          = (downloadSingleModel (some e) out).attemptsUsed - 1) := by
  have hchar : ∀ o, attemptSucceeds (some e) o = true ↔
      ∃ a, o = AttemptOutcome.completed (some a) true
        ∧ eqIgnoreAsciiCase a e = true := by
    intro o
    cases o with
    | httpFail => simp [attemptSucceeds]
    | streamErr => simp [attemptSucceeds]
    | completed hash renameOk =>
        cases hash with
        | none => simp [attemptSucceeds]
        | some a =>
            cases renameOk with
            | false => simp [attemptSucceeds]
            | true => simp [attemptSucceeds]
  cases hb0 : attemptSucceeds (some e) (out 0) with
  | true =>
      refine ⟨?_, ?_, hchar, ?_, ?_, ?_, ?_⟩ <;>
        simp [downloadSingleModel, runAttempts, maxDownloadAttempts, hb0]
      exact ⟨0, by omega, hb0⟩
  | false =>
      cases hb1 : attemptSucceeds (some e) (out 1) with
      | true =>
          refine ⟨?_, ?_, hchar, ?_, ?_, ?_, ?_⟩ <;>
            simp [downloadSingleModel, runAttempts, maxDownloadAttempts, hb0, hb1,
              retrySleepMs]
          exact ⟨1, by omega, hb1⟩
      | false =>
          cases hb2 : attemptSucceeds (some e) (out 2) with
          | true =>
              refine ⟨?_, ?_, hchar, ?_, ?_, ?_, ?_⟩ <;>
                simp [downloadSingleModel, runAttempts, maxDownloadAttempts, hb0,
                  hb1, hb2, retrySleepMs]
              exact ⟨2, by omega, hb2⟩
          | false =>
              refine ⟨?_, ?_, hchar, ?_, ?_, ?_, ?_⟩ <;>
                simp [downloadSingleModel, runAttempts, maxDownloadAttempts, hb0,
                  hb1, hb2, retrySleepMs]
              intro i hi
              interval_cases i <;> assumption

/-- C3 witness: a first attempt with a case-differing checksum and a good
rename succeeds immediately, with no sleeps and one attempt. -/
theorem download_retry_policy_witness :
    (downloadSingleModel (some "ab12".toList)
        (fun _ => AttemptOutcome.completed (some "AB12".toList) true)).success = true
    ∧ (downloadSingleModel (some "ab12".toList)
        (fun _ => AttemptOutcome.completed (some "AB12".toList) true)).attemptsUsed
        ≤ maxDownloadAttempts :=
  ⟨(download_retry_policy "ab12".toList
      (fun _ => AttemptOutcome.completed (some "AB12".toList) true)).2.1.mpr
      ⟨0, by omega, by decide⟩,
    (download_retry_policy "ab12".toList
      (fun _ => AttemptOutcome.completed (some "AB12".toList) true)).1⟩

/-- C9: the recorded artifacts do not depend on the executor's clock value
(`now` is only handed to `set_file_mtime`), and every recorded artifact
carries exactly the OS-reported mtime and size obtained by statting the
target after the rename, together with the context's mod name, relative
path, and expected checksum. -/
theorem artifacts_record_stat_mtime (now now2 : Nat)
    (rs : List ExecDownloadOutcome) :
    collectArtifacts now rs = collectArtifacts now2 rs
    ∧ ∀ a ∈ (collectArtifacts now rs).1, ∃ r ∈ rs, r.success = true
        ∧ ∃ ctx meta, r.ctx = some ctx ∧ r.statResult = Except.ok meta
          ∧ a.finalMtime = meta.mtime ∧ a.size = meta.size
          ∧ a.modName = ctx.modName ∧ a.relPath = ctx.relPath
          ∧ a.checksum = ctx.checksum := by
  constructor
  · induction rs with
    | nil => rfl
    | cons r rest ih => simp only [collectArtifacts, ih]
  · induction rs with
    | nil => intro a ha; simp [collectArtifacts] at ha
    | cons r rest ih =>
        intro a ha
        by_cases hs : r.success = true
        · cases hctx : r.ctx with
          | none =>
              simp only [collectArtifacts, hs, hctx, if_true] at ha
              rcases ih a ha with ⟨x, hx, hrest⟩
              exact ⟨x, List.mem_cons_of_mem r hx, hrest⟩
          | some ctx =>
              cases hst : r.statResult with
              | error u =>
                  simp only [collectArtifacts, hs, hctx, hst, if_true] at ha
                  rcases ih a ha with ⟨x, hx, hrest⟩
                  exact ⟨x, List.mem_cons_of_mem r hx, hrest⟩
              | ok meta =>
                  simp only [collectArtifacts, hs, hctx, hst, if_true,
                    List.mem_cons] at ha
                  rcases ha with rfl | ha
                  · exact ⟨r, List.mem_cons_self r rest, hs,
                      ctx, meta, hctx, hst, rfl, rfl, rfl, rfl, rfl⟩
                  · rcases ih a ha with ⟨x, hx, hrest⟩
                    exact ⟨x, List.mem_cons_of_mem r hx, hrest⟩
        · simp only [collectArtifacts, hs, if_false] at ha
          rcases ih a ha with ⟨x, hx, hrest⟩
          exact ⟨x, List.mem_cons_of_mem r hx, hrest⟩

/-- C9 witness: the single successful outcome of `outcomesW` yields an
artifact carrying the statted mtime and size. -/
theorem artifacts_record_stat_mtime_witness :
    ∃ r ∈ outcomesW, r.success = true ∧ ∃ ctx meta, r.ctx = some ctx
      ∧ r.statResult = Except.ok meta ∧ artifactW.finalMtime = meta.mtime
      ∧ artifactW.size = meta.size ∧ artifactW.modName = ctx.modName
      ∧ artifactW.relPath = ctx.relPath ∧ artifactW.checksum = ctx.checksum :=
  (artifacts_record_stat_mtime 0 1 outcomesW).2 artifactW (by decide)

/-- C6: the differential fetch reuses the baseline mod manifest exactly for
required mods whose name occurs in the loaded baseline with an equal
checksum, and never in `CacheOnly` mode; every reused mod comes from the
baseline; the remaining mods are the ones handed to the bounded fetch
stream, whose concurrency cap is the constant 20; the cached and fetched
counts partition the total. -/
theorem differential_fetch_reuse :
    (∀ (baseline : Option Manifest) (mode : SyncMode) (r : RepoModRef),
        (reuseForMod baseline mode r).isSome = true ↔
          ∃ lastKnown lm, baseline = some lastKnown
            ∧ lastKnown.mods.find? (fun m => decide (m.name = r.modName)) = some lm
            ∧ lm.checksum = r.checksum ∧ mode ≠ SyncMode.cacheOnly)
    ∧ (∀ (baseline : Option Manifest) (reqs : List RepoModRef),
        modsToFetch baseline SyncMode.cacheOnly reqs = reqs
          ∧ reusedMods baseline SyncMode.cacheOnly reqs = [])
    ∧ (∀ (baseline : Option Manifest) (mode : SyncMode) (reqs : List RepoModRef)
        (m : ModEntry), m ∈ reusedMods baseline mode reqs →
          ∃ lastKnown r, baseline = some lastKnown ∧ m ∈ lastKnown.mods
            ∧ r ∈ reqs ∧ m.name = r.modName ∧ m.checksum = r.checksum
            ∧ mode ≠ SyncMode.cacheOnly)
    ∧ (∀ (baseline : Option Manifest) (mode : SyncMode) (reqs : List RepoModRef)
        (fetchMod : Str → ModEntry),
        fetchRemoteStateMods baseline mode reqs fetchMod
            = reusedMods baseline mode reqs
              ++ (modsToFetch baseline mode reqs).map (fun r => fetchMod r.modName)
          ∧ (fetchStatsOf baseline mode reqs).modsCached
              + (fetchStatsOf baseline mode reqs).modsFetched = reqs.length)
    ∧ fetchConcurrencyLimit = 20 := by
  have hreuse_cacheOnly : ∀ (baseline : Option Manifest) (r : RepoModRef),
      reuseForMod baseline SyncMode.cacheOnly r = none := by
    intro baseline r
    cases baseline with
    | none => rfl
    | some lk =>
        simp only [reuseForMod]
        cases lk.mods.find? (fun m => decide (m.name = r.modName)) with
        | none => rfl
        | some lm =>
            show (if lm.checksum = r.checksum ∧ ¬True then some lm else none) = none
            rw [if_neg]
            rintro ⟨_, hmode⟩
            exact hmode trivial
  have hinv : ∀ (baseline : Option Manifest) (mode : SyncMode) (r : RepoModRef)
      (lm : ModEntry), reuseForMod baseline mode r = some lm →
        ∃ lastKnown, baseline = some lastKnown
          ∧ lastKnown.mods.find? (fun m => decide (m.name = r.modName)) = some lm
          ∧ lm.checksum = r.checksum ∧ mode ≠ SyncMode.cacheOnly := by
    intro baseline mode r lm h
    cases baseline with
    | none => exact absurd h (by simp [reuseForMod])
    | some lk =>
        simp only [reuseForMod] at h
        cases hf : lk.mods.find? (fun m => decide (m.name = r.modName)) with
        | none => rw [hf] at h; exact absurd h (by simp)
        | some lm2 =>
            rw [hf] at h
            have h2 : (if lm2.checksum = r.checksum ∧ ¬mode = SyncMode.cacheOnly
                then some lm2 else none) = some lm := h
            by_cases hcond : lm2.checksum = r.checksum ∧ ¬(mode = SyncMode.cacheOnly)
            · rw [if_pos hcond] at h2
              injection h2 with h3
              subst h3
              exact ⟨lk, rfl, hf, hcond.1, hcond.2⟩
            · rw [if_neg hcond] at h2
              exact absurd h2 (by simp)
  refine ⟨?_, ?_, ?_, ?_, rfl⟩
  · intro baseline mode r
    constructor
    · intro h
      rcases Option.isSome_iff_exists.mp h with ⟨lm, hlm⟩
      rcases hinv baseline mode r lm hlm with ⟨lk, hb, hf, hc, hm⟩
      exact ⟨lk, lm, hb, hf, hc, hm⟩
    · rintro ⟨lk, lm, rfl, hf, hc, hm⟩
      simp only [reuseForMod]
      rw [hf]
      show (if lm.checksum = r.checksum ∧ ¬mode = SyncMode.cacheOnly
          then some lm else none).isSome = true
      rw [if_pos ⟨hc, hm⟩]
      rfl
  · intro baseline reqs
    constructor
    · unfold modsToFetch
      rw [List.filter_congr (fun r _ => by rw [hreuse_cacheOnly baseline r])]
      exact List.filter_true reqs
    · unfold reusedMods
      rw [List.filterMap_eq_nil_iff.mpr (fun r _ => hreuse_cacheOnly baseline r)]
  · intro baseline mode reqs m hm
    rcases List.mem_filterMap.mp hm with ⟨r, hr, hsome⟩
    rcases hinv baseline mode r m hsome with ⟨lk, hb, hf, hc, hmode⟩
    have hname : m.name = r.modName := by
      have := List.find?_some hf
      simpa using this
    exact ⟨lk, r, hb, List.mem_of_find?_eq_some hf, hr, hname, hc, hmode⟩
  · intro baseline mode reqs fetchMod
    refine ⟨rfl, ?_⟩
    have hle : (modsToFetch baseline mode reqs).length ≤ reqs.length :=
      List.length_filter_le _ _
    simp only [fetchStatsOf]
    omega

/-- C6 witness: with a baseline holding `@mod_unchanged(hash_A)`, that mod
is reused in `SmartVerify` mode, and `CacheOnly` fetches everything. -/
theorem differential_fetch_reuse_witness :
    (reuseForMod (some baselineW) SyncMode.smartVerify
        ⟨"@mod_unchanged".toList, "hash_A".toList, true⟩).isSome = true
    ∧ modsToFetch (some baselineW) SyncMode.cacheOnly reqsW = reqsW :=
  ⟨(differential_fetch_reuse.1 (some baselineW) SyncMode.smartVerify
      ⟨"@mod_unchanged".toList, "hash_A".toList, true⟩).mpr
      ⟨baselineW, ⟨"@mod_unchanged".toList, "hash_A".toList, []⟩, rfl,
        by decide, by decide, by decide⟩,
    (differential_fetch_reuse.2.1 (some baselineW) reqsW).1⟩

/-- C10: within a matched mod, `diff_files` never schedules the same
canonicalized relative path both for download and for deletion: downloads
are remote paths (whose canonical keys are all visited), deletes are local
paths whose canonical key is unvisited. -/
theorem diff_files_download_delete_disjoint (rm lm : ModEntry) (lf : FsFile)
    (hdel : DeleteAction.mk (lm.name ++ ('/' :: lf.path)) ∈ diffFilesDeletes rm lm) :
    ∀ d ∈ diffFilesDownloads rm lm,
      canonicalize d.relPath ≠ canonicalize lf.path := by
  rcases List.mem_filterMap.mp hdel with ⟨lf2, hlf2, hgen⟩
  by_cases hk : canonicalize lf2.path ∈ remoteKeys rm
  · rw [if_pos hk] at hgen
    exact absurd hgen (by simp)
  · rw [if_neg hk] at hgen
    injection hgen with hpath
    have hfield : lm.name ++ '/' :: lf2.path = lm.name ++ '/' :: lf.path :=
      congrArg DeleteAction.path hpath
    have hpp : lf2.path = lf.path := by
      have h2 := List.append_cancel_left hfield
      injection h2 with _ h3
    intro d hd
    rcases List.mem_filterMap.mp hd with ⟨rf, hrf, hgend⟩
    have hdrel : d.relPath = rf.path := by
      cases hl : localFileLookup lm.files (canonicalize rf.path) with
      | some lfx =>
          rw [hl] at hgend
          by_cases hc : lfx.checksum = rf.checksum
          · simp [hc] at hgend
          · simp only [hc, if_false, Option.some.injEq] at hgend
            rw [← hgend]
      | none =>
          rw [hl] at hgend
          simp only [Option.some.injEq] at hgend
          rw [← hgend]
    intro heq
    apply hk
    rw [hpp, ← heq, hdrel]
    exact List.mem_map_of_mem (fun f => canonicalize f.path) hrf

/-- C10 witness: a concrete matched mod with one download and one delete;
their canonical paths differ. -/
theorem diff_files_download_delete_disjoint_witness :
    canonicalize (DownloadAction.mk "@m".toList "a.pbo".toList 1 "x".toList).relPath
      ≠ canonicalize (FsFile.mk "b.pbo".toList 2 "y".toList FileKind.file []).path :=
  diff_files_download_delete_disjoint rmodW lmodW
    (FsFile.mk "b.pbo".toList 2 "y".toList FileKind.file []) (by decide)
    (DownloadAction.mk "@m".toList "a.pbo".toList 1 "x".toList) (by decide)

/-! ### Lemmas for `diff` applied to identical manifests -/

lemma filter_key_singleton {α β : Type} [DecidableEq β] (key : α → β) :
    ∀ (l : List α), l.Pairwise (fun a b => key a ≠ key b) →
      ∀ x ∈ l, l.filter (fun y => decide (key y = key x)) = [x] := by
  intro l hl x hx
  induction l with
  | nil => cases hx
  | cons a t ih =>
      rcases List.pairwise_cons.mp hl with ⟨ha, ht⟩
      rcases List.mem_cons.mp hx with rfl | hx2
      · rw [List.filter_cons_of_pos (by simp)]
        have hnil : t.filter (fun y => decide (key y = key x)) = [] :=
          List.filter_eq_nil_iff.mpr (fun y hy => by
            simp only [decide_eq_true_eq]
            exact fun he => (ha y hy) he.symm)
        rw [hnil]
      · have hne : key a ≠ key x := ha x hx2
        rw [List.filter_cons_of_neg (by simp [hne])]
        exact ih ht hx2

lemma bucketOf_self (mods : List ModEntry)
    (h : mods.Pairwise (fun a b => lowerStr a.name ≠ lowerStr b.name))
    (m : ModEntry) (hm : m ∈ mods) : bucketOf mods (lowerStr m.name) = [m] := by
  unfold bucketOf
  exact filter_key_singleton (fun x => lowerStr x.name) mods h m hm

lemma survivorOf_self (m : ModEntry) : survivorOf [m] m.name = some m := by
  simp [survivorOf]

lemma localFileLookup_self (files : List FsFile)
    (hf : files.Pairwise (fun a b => canonicalize a.path ≠ canonicalize b.path))
    (f : FsFile) (hm : f ∈ files) :
    localFileLookup files (canonicalize f.path) = some f := by
  unfold localFileLookup
  rw [filter_key_singleton (fun x => canonicalize x.path) files hf f hm]
  rfl

lemma diffFilesDownloads_self (m : ModEntry)
    (hf : m.files.Pairwise (fun a b => canonicalize a.path ≠ canonicalize b.path)) :
    diffFilesDownloads m m = [] :=
  List.filterMap_eq_nil_iff.mpr (fun rf hrf => by
    rw [localFileLookup_self m.files hf rf hrf]
    simp)

lemma diffFilesDeletes_self (m : ModEntry) : diffFilesDeletes m m = [] :=
  List.filterMap_eq_nil_iff.mpr (fun lf hlf => by
    have hmem : canonicalize lf.path ∈ remoteKeys m := by
      unfold remoteKeys
      exact List.mem_map_of_mem _ hlf
    rw [if_pos hmem])

lemma length_filterMap_of_isSome {α β : Type} (f : α → Option β) :
    ∀ l : List α, (∀ a ∈ l, (f a).isSome = true) →
      (l.filterMap f).length = l.length := by
  intro l h
  induction l with
  | nil => rfl
  | cons a t ih =>
      rcases Option.isSome_iff_exists.mp (h a (List.mem_cons_self a t)) with ⟨b, hb⟩
      rw [List.filterMap_cons_some hb, List.length_cons, List.length_cons,
        ih (fun x hx => h x (List.mem_cons_of_mem a hx))]

lemma diffFilesChecks_self_length (m : ModEntry)
    (hf : m.files.Pairwise (fun a b => canonicalize a.path ≠ canonicalize b.path)) :
    (diffFilesChecks m m).length = m.files.length :=
  length_filterMap_of_isSome _ m.files (fun rf hrf => by
    rw [localFileLookup_self m.files hf rf hrf]
    simp)

lemma modClaimed_self (mods : List ModEntry)
    (h : mods.Pairwise (fun a b => lowerStr a.name ≠ lowerStr b.name))
    (m : ModEntry) (hm : m ∈ mods) : modClaimed mods m = [m.name] := by
  simp [modClaimed, bucketOf_self mods h m hm, survivorOf_self]

/-- C5 counterexample: `diff(M, M)` on the one-file `tinyManifest` is not the
empty plan — it emits one verification check per file, so the claim's "no
verification checks" fails. -/
theorem diff_self_not_empty_plan :
    ¬ ((diff tinyManifest tinyManifest).renames = []
      ∧ (diff tinyManifest tinyManifest).checks = []
      ∧ (diff tinyManifest tinyManifest).downloads = []
      ∧ (diff tinyManifest tinyManifest).deletes = []) := by decide

/-- C5 (amended): for every manifest whose mods have pairwise-distinct
lowercased names and whose files have pairwise-distinct canonicalized paths
within each mod, `diff(M, M)` plans no renames, no downloads, and no
deletes; it emits exactly one verification check per file (so the checks
list is empty only when the manifest has no files). -/
theorem diff_self_mutation_free (M : Manifest)
    (hmods : M.mods.Pairwise (fun a b => lowerStr a.name ≠ lowerStr b.name))
    (hfiles : ∀ m ∈ M.mods,
      m.files.Pairwise (fun a b => canonicalize a.path ≠ canonicalize b.path)) :
    (diff M M).renames = [] ∧ (diff M M).downloads = []
      ∧ (diff M M).deletes = []
      ∧ (diff M M).checks.length = (M.mods.map (fun m => m.files.length)).sum := by
  refine ⟨?_, ?_, ?_, ?_⟩
  · exact List.flatMap_eq_nil_iff.mpr (fun m hm => by
      simp [modRenames, bucketOf_self M.mods hmods m hm, survivorOf_self])
  · exact List.flatMap_eq_nil_iff.mpr (fun m hm => by
      simp [modDownloads, bucketOf_self M.mods hmods m hm, survivorOf_self,
        diffFilesDownloads_self m (hfiles m hm)])
  · show M.mods.flatMap (modDeletes M.mods) ++ orphanDeletes M.mods M.mods = []
    rw [List.flatMap_eq_nil_iff.mpr (fun m hm => by
        simp [modDeletes, bucketOf_self M.mods hmods m hm, survivorOf_self,
          diffFilesDeletes_self m]),
      List.nil_append]
    exact List.filterMap_eq_nil_iff.mpr (fun m hm => by
      have hc : m.name ∈ claimedMods M.mods M.mods := by
        unfold claimedMods
        exact List.mem_flatMap.mpr ⟨m, hm, by
          rw [modClaimed_self M.mods hmods m hm]
          exact List.mem_singleton_self m.name⟩
      rw [if_pos hc])
  · show (M.mods.flatMap (modChecks M.mods)).length = _
    rw [List.length_flatMap]
    congr 1
    refine List.map_congr_left (fun m hm => ?_)
    simp only [Function.comp]
    rw [show modChecks M.mods m = diffFilesChecks m m from by
        simp [modChecks, bucketOf_self M.mods hmods m hm, survivorOf_self]]
    exact diffFilesChecks_self_length m (hfiles m hm)

/-- C5 witness: the amended statement holds on the concrete one-file
manifest. -/
theorem diff_self_mutation_free_witness :
    (diff tinyManifest tinyManifest).renames = []
      ∧ (diff tinyManifest tinyManifest).downloads = []
      ∧ (diff tinyManifest tinyManifest).deletes = []
      ∧ (diff tinyManifest tinyManifest).checks.length
          = (tinyManifest.mods.map (fun m => m.files.length)).sum :=
  diff_self_mutation_free tinyManifest (by decide) (by decide)

/-! ### Lemmas for the scan-cache byte ranges -/

lemma bytesLe_nil_left (bs : Bytes) : bytesLe [] bs = true := by
  cases bs <;> simp [bytesLe, bytesLt]

lemma bytesLt_nil_right (as : Bytes) : bytesLt as [] = false := by
  cases as <;> rfl

lemma bytesLe_cons_cons (a b : Nat) (as bs : Bytes) :
    bytesLe (a :: as) (b :: bs) = if a = b then bytesLe as bs else decide (a < b) := by
  by_cases hab : a = b
  · subst hab
    simp [bytesLe, bytesLt, List.cons.injEq, Nat.lt_irrefl]
  · simp [bytesLe, bytesLt, List.cons.injEq, hab]

lemma bytesLt_cons_cons (a b : Nat) (as bs : Bytes) :
    bytesLt (a :: as) (b :: bs) = if a = b then bytesLt as bs else decide (a < b) := by
  by_cases hab : a = b
  · subst hab; simp [bytesLt, Nat.lt_irrefl]
  · simp [bytesLt, hab]

/-- The half-open range `[m||0x00, m||0x01)` contains exactly the keys with
prefix `m||0x00`. -/
lemma inRange_eq_isPrefix : ∀ (m k : Bytes),
    inRangeB (m ++ [0]) (m ++ [1]) k = (m ++ [0]).isPrefixOf k := by
  intro m
  induction m with
  | nil =>
      intro k
      cases k with
      | nil => rfl
      | cons b bs =>
          simp only [List.nil_append, inRangeB]
          rw [bytesLe_cons_cons, bytesLt_cons_cons]
          by_cases hb : b = 0
          · subst hb
            rw [if_pos rfl, if_neg (by omega)]
            simp [bytesLe_nil_left, List.isPrefixOf]
          · have h2 : (if b = 1 then bytesLt bs [] else decide (b < 1)) = false := by
              by_cases hb1 : b = 1
              · simp [hb1, bytesLt_nil_right]
              · simp only [hb1, if_false]
                simp only [decide_eq_false_iff_not]
                omega
            rw [if_neg (fun h => hb h.symm), h2]
            simp [List.isPrefixOf, show (0 : Nat) ≠ b from fun h => hb h.symm]
  | cons a ms ih =>
      intro k
      cases k with
      | nil =>
          simp [inRangeB, bytesLe, bytesLt_nil_right, List.isPrefixOf,
            List.cons_append]
      | cons b bs =>
          simp only [List.cons_append, inRangeB]
          rw [bytesLe_cons_cons, bytesLt_cons_cons]
          by_cases hab : a = b
          · subst hab
            rw [if_pos rfl, if_pos rfl]
            show inRangeB (ms ++ [0]) (ms ++ [1]) bs = _
            rw [ih bs]
            simp [List.isPrefixOf]
          · rw [if_neg hab, if_neg (fun h => hab h.symm)]
            have hiff : ¬ (b < a) ∨ ¬ (a < b) := by omega
            simp only [List.isPrefixOf]
            rcases hiff with h1 | h1
            · simp [h1, hab]
            · simp [h1, hab]

lemma removeAll_eq_filter (ks : List Bytes) : ∀ t : CacheTable,
    ks.foldl tableRemove t = t.filter (fun kv => !(decide (kv.1 ∈ ks))) := by
  induction ks with
  | nil =>
      intro t
      show t = _
      have hpt : ∀ kv ∈ t,
          (fun kv : Bytes × FileCacheEntryB => !(decide (kv.1 ∈ ([] : List Bytes)))) kv
            = (fun _ => true) kv := fun kv _ => by simp
      rw [List.filter_congr hpt, List.filter_true]
  | cons k ks ih =>
      intro t
      show ks.foldl tableRemove (tableRemove t k) = _
      rw [ih (tableRemove t k)]
      unfold tableRemove
      rw [List.filter_filter]
      refine List.filter_congr (fun kv _ => ?_)
      simp only [List.mem_cons, Bool.decide_or, Bool.not_or]
      rw [Bool.and_comm]

lemma tableRemoveRange_eq_filter (t : CacheTable) (start stop : Bytes) :
    tableRemoveRange t start stop
      = t.filter (fun kv => !(inRangeB start stop kv.1)) := by
  unfold tableRemoveRange
  rw [removeAll_eq_filter]
  refine List.filter_congr (fun kv hkv => ?_)
  congr 1
  by_cases hin : inRangeB start stop kv.1 = true
  · rw [hin]
    simp only [decide_eq_true_eq]
    unfold tableRangeKeys
    exact List.mem_map_of_mem _ (List.mem_filter.mpr ⟨hkv, hin⟩)
  · have hnotmem : kv.1 ∉ tableRangeKeys t start stop := by
      intro hmem
      unfold tableRangeKeys at hmem
      rcases List.mem_map.mp hmem with ⟨kv2, hkv2, hfst⟩
      have h2 := (List.mem_filter.mp hkv2).2
      rw [hfst] at h2
      exact hin h2
    simp [hnotmem, hin]

/-- Key of another 0x00-free mod name never carries the prefix of `m`. -/
lemma no_cross_prefix : ∀ (m m2 rel : Bytes), (0:Nat) ∉ m → (0:Nat) ∉ m2 →
    m ≠ m2 → (m ++ [0]).isPrefixOf (m2 ++ [0] ++ rel) = false := by
  intro m
  induction m with
  | nil =>
      intro m2 rel h0 h02 hne
      cases m2 with
      | nil => exact absurd rfl hne
      | cons c cs =>
          have hc : (0 : Nat) ≠ c := by
            intro h
            exact h02 (h ▸ List.mem_cons_self c cs)
          simp [List.isPrefixOf, List.cons_append, hc]
  | cons a ms ih =>
      intro m2 rel h0 h02 hne
      cases m2 with
      | nil =>
          have ha : a ≠ 0 := by
            intro h
            exact h0 (h ▸ List.mem_cons_self a ms)
          simp [List.isPrefixOf, List.cons_append, List.nil_append, ha]
      | cons c cs =>
          by_cases hac : a = c
          · subst hac
            have hne2 : ms ≠ cs := fun h => hne (by rw [h])
            have h0ms : (0:Nat) ∉ ms := fun h => h0 (List.mem_cons_of_mem a h)
            have h0cs : (0:Nat) ∉ cs := fun h => h02 (List.mem_cons_of_mem a h)
            simp only [List.cons_append, List.isPrefixOf, beq_self_eq_true,
              Bool.true_and]
            exact ih cs rel h0ms h0cs hne2
          · simp [List.isPrefixOf, List.cons_append, hac]

lemma find?_filter_of_keep {α : Type} (pred q : α → Bool)
    (h : ∀ x, q x = true → pred x = true) :
    ∀ t : List α, (t.filter pred).find? q = t.find? q := by
  intro t
  induction t with
  | nil => rfl
  | cons x xs ih =>
      by_cases hq : q x = true
      · rw [List.filter_cons_of_pos (h x hq), List.find?_cons_of_pos _ hq,
          List.find?_cons_of_pos _ hq]
      · by_cases hp : pred x = true
        · rw [List.filter_cons_of_pos hp, List.find?_cons_of_neg _ hq,
            List.find?_cons_of_neg _ hq, ih]
        · rw [List.filter_cons_of_neg hp, ih, List.find?_cons_of_neg _ hq]

/-- C7: `scan_cache_delete_mod` removes exactly the keys of the bounded
range `[mod||0x00, mod||0x01)`, which are exactly the keys prefixed by
`mod||0x00`; entries of any byte-different 0x00-free mod name are untouched. -/
theorem scan_cache_delete_mod_bounded (t : CacheTable) (m : Bytes)
    (hm : (0:Nat) ∉ m) :
    (∀ k : Bytes, inRangeB (m ++ [0]) (m ++ [1]) k = (prefixForMod m).isPrefixOf k)
    ∧ ∃ t2, scanCacheDeleteMod t m = Except.ok t2
        ∧ t2 = t.filter (fun kv => !((prefixForMod m).isPrefixOf kv.1))
        ∧ ∀ (m2 rel : Bytes), (0:Nat) ∉ m2 → m2 ≠ m →
            tableGet t2 (cacheKeyBytes m2 rel) = tableGet t (cacheKeyBytes m2 rel) := by
  have hval : validateModNameB m = Except.ok () := by
    unfold validateModNameB
    rw [if_neg hm]
  have hrange : rangeForMod m = Except.ok (m ++ [0], m ++ [1]) := by
    unfold rangeForMod
    rw [hval]
  have hpfx : ∀ k : Bytes,
      inRangeB (m ++ [0]) (m ++ [1]) k = (prefixForMod m).isPrefixOf k :=
    fun k => inRange_eq_isPrefix m k
  refine ⟨hpfx, t.filter (fun kv => !((prefixForMod m).isPrefixOf kv.1)), ?_, rfl, ?_⟩
  · unfold scanCacheDeleteMod
    rw [hval, hrange]
    show Except.ok (tableRemoveRange t (m ++ [0]) (m ++ [1])) = _
    rw [tableRemoveRange_eq_filter]
    exact congrArg Except.ok (List.filter_congr (fun kv _ => by rw [hpfx kv.1]))
  · intro m2 rel h02 hne
    unfold tableGet
    rw [find?_filter_of_keep _ _ ?keep t]
    case keep =>
      intro kv hkv
      have hkey : kv.1 = cacheKeyBytes m2 rel := of_decide_eq_true hkv
      rw [hkey]
      have hfalse : (prefixForMod m).isPrefixOf (cacheKeyBytes m2 rel) = false := by
        show (m ++ [0]).isPrefixOf (m2 ++ [0] ++ rel) = false
        exact no_cross_prefix m m2 rel hm h02 (fun h => hne h.symm)
      rw [hfalse]
      rfl

/-- C7 witness: deleting mod `@a`'s range leaves the `@b` entry readable. -/
theorem scan_cache_delete_mod_bounded_witness :
    ∃ t2, scanCacheDeleteMod tableW [64, 97] = Except.ok t2
      ∧ t2 = tableW.filter (fun kv => !((prefixForMod [64, 97]).isPrefixOf kv.1))
      ∧ tableGet t2 (cacheKeyBytes [64, 98] [121])
          = tableGet tableW (cacheKeyBytes [64, 98] [121]) := by
  rcases (scan_cache_delete_mod_bounded tableW [64, 97] (by decide)).2
    with ⟨t2, h1, h2, h3⟩
  exact ⟨t2, h1, h2, h3 [64, 98] [121] (by decide) (by decide)⟩

/-! ### Lemmas for `commit_sync_snapshot` -/

lemma normalizeRelPathB_ok_eq (p q : Bytes)
    (h : normalizeRelPathB p = Except.ok q) : q = normalizeB p := by
  unfold normalizeRelPathB at h
  cases hv : validateRelPathB (normalizeB p) with
  | error e => rw [hv] at h; exact absurd h (by simp)
  | ok u => cases u; rw [hv] at h; injection h with h2; exact h2.symm

lemma applyCacheUpsert_ok (t : CacheTable) (u : CacheUpsertRecordB)
    (t2 : CacheTable) (h : applyCacheUpsert t u = Except.ok t2) :
    validateModNameB u.modName = Except.ok ()
      ∧ normalizeRelPathB u.relPath = Except.ok (normalizeB u.relPath)
      ∧ t2 = tableInsert t (upsertKeyRaw u) ⟨u.mtime, u.size, u.checksum⟩ := by
  unfold applyCacheUpsert at h
  cases hv : validateModNameB u.modName with
  | error e => rw [hv] at h; exact absurd h (by simp)
  | ok v =>
      cases v
      rw [hv] at h
      cases hn : normalizeRelPathB u.relPath with
      | error e => rw [hn] at h; exact absurd h (by simp)
      | ok rel =>
          rw [hn] at h
          injection h with h2
          have hrel := normalizeRelPathB_ok_eq u.relPath rel hn
          subst hrel
          exact ⟨rfl, rfl, h2.symm⟩

lemma tableGet_insert_self (t : CacheTable) (k : Bytes) (v : FileCacheEntryB) :
    tableGet (tableInsert t k v) k = some v := by
  unfold tableGet tableInsert
  rw [List.find?_append]
  have hnone : (t.filter (fun kv => !(decide (kv.1 = k)))).find?
      (fun kv => decide (kv.1 = k)) = none :=
    List.find?_eq_none.mpr (fun kv hkv => by
      have := (List.mem_filter.mp hkv).2
      simp only [Bool.not_eq_true'] at this
      simp [this])
  rw [hnone]
  simp

lemma tableGet_insert_ne (t : CacheTable) (k k2 : Bytes) (v : FileCacheEntryB)
    (hne : k ≠ k2) : tableGet (tableInsert t k v) k2 = tableGet t k2 := by
  unfold tableGet tableInsert
  rw [List.find?_append]
  have hsingle : ([(k, v)].find? (fun kv => decide (kv.1 = k2))) = none := by
    simp [hne]
  rw [hsingle, Option.or_none]
  rw [find?_filter_of_keep _ _ (fun kv hkv => by
    have h2 : kv.1 = k2 := of_decide_eq_true hkv
    simp only [h2, Bool.not_eq_true', decide_eq_false_iff_not]
    exact fun hh => hne hh.symm) t]

lemma upsert_fold_ok_all :
    ∀ (ups : List CacheUpsertRecordB) (t t2 : CacheTable),
      ups.foldlM applyCacheUpsert t = Except.ok t2 →
        ∀ u ∈ ups, validateModNameB u.modName = Except.ok ()
          ∧ normalizeRelPathB u.relPath = Except.ok (normalizeB u.relPath) := by
  intro ups
  induction ups with
  | nil => intro t t2 _ u hu; cases hu
  | cons a rest ih =>
      intro t t2 h u hu
      rw [List.foldlM_cons] at h
      cases hfa : applyCacheUpsert t a with
      | error e =>
          rw [hfa] at h
          exact absurd (show (Except.error e : Except StorageError CacheTable)
            = Except.ok t2 from h) (by simp)
      | ok t1 =>
          rw [hfa] at h
          have h2 : rest.foldlM applyCacheUpsert t1 = Except.ok t2 := h
          rcases List.mem_cons.mp hu with rfl | hu2
          · rcases applyCacheUpsert_ok t u t1 hfa with ⟨hv, hn, _⟩
            exact ⟨hv, hn⟩
          · exact ih t1 t2 h2 u hu2

lemma upsert_fold_get_other :
    ∀ (ups : List CacheUpsertRecordB) (t t2 : CacheTable) (k : Bytes),
      ups.foldlM applyCacheUpsert t = Except.ok t2 →
        (∀ u ∈ ups, upsertKeyRaw u ≠ k) → tableGet t2 k = tableGet t k := by
  intro ups
  induction ups with
  | nil =>
      intro t t2 k h _
      have h2 : t = t2 := by injection h
      rw [h2]
  | cons a rest ih =>
      intro t t2 k h hk
      rw [List.foldlM_cons] at h
      cases hfa : applyCacheUpsert t a with
      | error e =>
          rw [hfa] at h
          exact absurd (show (Except.error e : Except StorageError CacheTable)
            = Except.ok t2 from h) (by simp)
      | ok t1 =>
          rw [hfa] at h
          have h2 : rest.foldlM applyCacheUpsert t1 = Except.ok t2 := h
          rcases applyCacheUpsert_ok t a t1 hfa with ⟨_, _, ht1⟩
          rw [ih t1 t2 k h2 (fun u hu => hk u (List.mem_cons_of_mem a hu)), ht1,
            tableGet_insert_ne _ _ _ _ (hk a (List.mem_cons_self a rest))]

lemma upsert_fold_get_self :
    ∀ (ups : List CacheUpsertRecordB) (t t2 : CacheTable),
      ups.foldlM applyCacheUpsert t = Except.ok t2 →
        ups.Pairwise (fun a b => upsertKeyRaw a ≠ upsertKeyRaw b) →
        ∀ u ∈ ups, tableGet t2 (upsertKeyRaw u)
          = some ⟨u.mtime, u.size, u.checksum⟩ := by
  intro ups
  induction ups with
  | nil => intro t t2 _ _ u hu; cases hu
  | cons a rest ih =>
      intro t t2 h hpair u hu
      rw [List.foldlM_cons] at h
      cases hfa : applyCacheUpsert t a with
      | error e =>
          rw [hfa] at h
          exact absurd (show (Except.error e : Except StorageError CacheTable)
            = Except.ok t2 from h) (by simp)
      | ok t1 =>
          rw [hfa] at h
          have h2 : rest.foldlM applyCacheUpsert t1 = Except.ok t2 := h
          rcases List.pairwise_cons.mp hpair with ⟨hhead, htail⟩
          rcases applyCacheUpsert_ok t a t1 hfa with ⟨_, _, ht1⟩
          rcases List.mem_cons.mp hu with rfl | hu2
          · rw [upsert_fold_get_other rest t1 t2 (upsertKeyRaw u) h2
              (fun b hb => (hhead b hb).symm), ht1, tableGet_insert_self]
          · exact ih t1 t2 h2 htail u hu2

lemma stripPrefixB_append : ∀ (p r : Bytes), stripPrefixB p (p ++ r) = some r := by
  intro p r
  induction p with
  | nil => rfl
  | cons a ps ih => simp [stripPrefixB, ih]

/-- Looking up a relative path in the map returned by `scan_cache_load_mod`
is looking up the prefixed key in the table. -/
lemma scanCacheLoadMod_find (t : CacheTable) (m rel : Bytes)
    (hval : validateModNameB m = Except.ok ()) :
    ∃ out, scanCacheLoadMod t m = Except.ok out
      ∧ (out.find? (fun kv => decide (kv.1 = rel))).map (fun kv => kv.2)
          = tableGet t (cacheKeyBytes m rel) := by
  have hrange : rangeForMod m = Except.ok (m ++ [0], m ++ [1]) := by
    unfold rangeForMod
    rw [hval]
  refine ⟨(t.filter (fun kv => inRangeB (m ++ [0]) (m ++ [1]) kv.1)).filterMap
      (fun kv => (stripPrefixB (prefixForMod m) kv.1).map (fun r => (r, kv.2))),
    ?_, ?_⟩
  · unfold scanCacheLoadMod
    rw [hval, hrange]
  · induction t with
    | nil => rfl
    | cons kv rest ih =>
        by_cases hin : inRangeB (m ++ [0]) (m ++ [1]) kv.1 = true
        · have hpf : (m ++ [0]).isPrefixOf kv.1 = true := by
            rw [← inRange_eq_isPrefix]; exact hin
          rcases List.isPrefixOf_iff_prefix.mp hpf with ⟨r, hr⟩
          have hstrip : stripPrefixB (prefixForMod m) kv.1 = some r := by
            rw [← hr]
            exact stripPrefixB_append (m ++ [0]) r
          have hin2 : (fun kv : Bytes × FileCacheEntryB =>
              inRangeB (m ++ [0]) (m ++ [1]) kv.1) kv = true := hin
          rw [show (kv :: rest).filter
                (fun kv => inRangeB (m ++ [0]) (m ++ [1]) kv.1)
              = kv :: rest.filter (fun kv => inRangeB (m ++ [0]) (m ++ [1]) kv.1)
              from List.filter_cons_of_pos hin2,
            List.filterMap_cons_some (show _ = some (r, kv.2) by rw [hstrip]; rfl)]
          by_cases hrel : r = rel
          · subst hrel
            rw [List.find?_cons_of_pos _ (by simp)]
            unfold tableGet
            rw [List.find?_cons_of_pos _ (by simp [← hr, cacheKeyBytes])]
            rfl
          · rw [List.find?_cons_of_neg _ (by simp [hrel])]
            unfold tableGet
            rw [List.find?_cons_of_neg _ (by
              simp only [decide_eq_true_eq]
              intro hkey
              rw [← hr] at hkey
              unfold cacheKeyBytes at hkey
              exact hrel (List.append_cancel_left hkey))]
            exact ih
        · have hin2 : ¬ (fun kv : Bytes × FileCacheEntryB =>
              inRangeB (m ++ [0]) (m ++ [1]) kv.1) kv = true := hin
          rw [show (kv :: rest).filter
                (fun kv => inRangeB (m ++ [0]) (m ++ [1]) kv.1)
              = rest.filter (fun kv => inRangeB (m ++ [0]) (m ++ [1]) kv.1)
              from List.filter_cons_of_neg hin2]
          unfold tableGet
          rw [List.find?_cons_of_neg _ (by
            simp only [decide_eq_true_eq]
            intro hkey
            apply hin
            rw [hkey, inRange_eq_isPrefix]
            exact List.isPrefixOf_iff_prefix.mpr ⟨rel, rfl⟩)]
          exact ih

/-- C1: `commit_sync_snapshot` is one transaction: on any error the
caller-visible store is unchanged in every component; on success the new
baseline manifest, the new baseline summary, the cache deletes, renames and
upserts (in that order), and the `last_sync_at` stamp are all visible
together, and every upserted record with a unique key is afterwards read
back by `scan_cache_load_mod` as exactly its committed (mtime, size,
checksum) triple under its normalized relative path. -/
theorem commit_sync_snapshot_atomic (now : Nat) (s : StoreState)
    (man : BManifest) (su : List BModSummary) (ups : List CacheUpsertRecordB)
    (dels : List CacheDeleteRecordB) (rens : List CacheRenameRecordB) :
    (∀ e, commitSyncSnapshot now s man su ups dels rens = Except.error e →
        commitSyncVisible now s man su ups dels rens = s)
    ∧ (∀ s2, commitSyncSnapshot now s man su ups dels rens = Except.ok s2 →
        commitSyncVisible now s man su ups dels rens = s2
        ∧ (∃ nm, normalizeBManifest man = Except.ok nm
            ∧ s2.baselineManifest = some nm)
        ∧ (∃ ns, su.mapM normalizeBModSummary = Except.ok ns
            ∧ s2.baselineSummary = some ns)
        ∧ s2.lastSyncAt = some now
        ∧ (∃ t1 t2, dels.foldlM applyCacheDelete s.scanCache = Except.ok t1
            ∧ rens.foldlM applyCacheRename t1 = Except.ok t2
            ∧ ups.foldlM applyCacheUpsert t2 = Except.ok s2.scanCache)
        ∧ (ups.Pairwise (fun a b => upsertKeyRaw a ≠ upsertKeyRaw b) →
            ∀ u ∈ ups,
              ∃ out, scanCacheLoadMod s2.scanCache u.modName = Except.ok out
                ∧ (out.find? (fun kv => decide (kv.1 = normalizeB u.relPath))).map
                    (fun kv => kv.2)
                  = some ⟨u.mtime, u.size, u.checksum⟩)) := by
  constructor
  · intro e h
    unfold commitSyncVisible
    rw [h]
  · intro s2 h
    have hcommit := h
    unfold commitSyncSnapshot at h
    split at h
    · exact absurd h (by simp)
    next nm hnm =>
      split at h
      · exact absurd h (by simp)
      next ns hns =>
        split at h
        · exact absurd h (by simp)
        next t1 hd =>
          split at h
          · exact absurd h (by simp)
          next t2 hrn =>
            split at h
            · exact absurd h (by simp)
            next t3 hup =>
              injection h with hs2
              subst hs2
              refine ⟨?_, ⟨nm, hnm, rfl⟩, ⟨ns, hns, rfl⟩, rfl,
                ⟨t1, t2, hd, hrn, hup⟩, ?_⟩
              · unfold commitSyncVisible
                rw [hcommit]
              · intro hpair u hu
                have hall := upsert_fold_ok_all ups t2 t3 hup u hu
                have hget := upsert_fold_get_self ups t2 t3 hup hpair u hu
                rcases scanCacheLoadMod_find t3 u.modName (normalizeB u.relPath)
                  hall.1 with ⟨out, hload, hfind⟩
                exact ⟨out, hload, by rw [hfind]; exact hget⟩

/-- C1 witness: committing one upsert into an empty store and reading it
back through `scan_cache_load_mod`. -/
theorem commit_sync_snapshot_atomic_witness :
    ∃ s2, commitSyncSnapshot 7 emptyStore bmanW [] [upW] [] [] = Except.ok s2
      ∧ ∃ out, scanCacheLoadMod s2.scanCache upW.modName = Except.ok out
        ∧ (out.find? (fun kv => decide (kv.1 = normalizeB upW.relPath))).map
            (fun kv => kv.2)
          = some ⟨upW.mtime, upW.size, upW.checksum⟩ := by
  have h : commitSyncSnapshot 7 emptyStore bmanW [] [upW] [] []
      = Except.ok { baselineManifest := some bmanW, baselineSummary := some []
                    scanCache := [([64, 97, 0, 97, 46, 116], ⟨1, 2, [99]⟩)]
                    lastSyncAt := some 7, lastRepairAt := none } := by decide
  refine ⟨_, h, ?_⟩
  exact ((commit_sync_snapshot_atomic 7 emptyStore bmanW [] [upW] [] []).2 _ h).2.2.2.2.2
    (List.pairwise_singleton _ _) upW (List.mem_singleton_self upW)

end Fleet
